import Mathlib

/-
Verification of the kafka-kit partition placement / rebalancing core.

The Go sources are shallowly embedded:
- Go `float64` storage quantities are modelled as exact rationals (ℚ);
- Go maps are modelled as association lists whose well-formedness
  (no duplicate keys, entry ID equals its key) mirrors the Go map invariants;
- Go `nil`-pointer dereferences (indexing a map at an absent key and
  immediately reading a field) are modelled by an `Option`-valued result,
  `none` standing for the run-time panic;
- the Go global `math/rand` generator is modelled as an explicit integer
  state threaded through the functions that touch it; `rand.Seed`
  replaces the state with a function of the seed only.
-/

set_option linter.dupNamespace false

namespace Kafkazk

/-- `Partition` from partitionmap source: topic, partition index, ordered replica list. -/
structure Partition where
  Topic : String
  Partition : Int
  Replicas : List Int
deriving DecidableEq, Repr

/-- `PartitionMap`: format version plus ordered partition list. -/
structure PartitionMap where
  Version : Int
  Partitions : List Partition
deriving DecidableEq, Repr

/-- `NewPartitionMap` returns an empty map with Version 1. -/
def NewPartitionMap : PartitionMap := { Version := 1, Partitions := [] }

/-- `partitionList.Less` from the source (sort.Interface): topic ascending,
then partition index ascending.  `partitionLe` is its reflexive closure,
the ordering the Go standard sort establishes. -/
def partitionLe (p q : Partition) : Bool :=
  if p.Topic < q.Topic then true
  else if q.Topic < p.Topic then false
  else p.Partition ≤ q.Partition

/-- `sort.Sort(pm.Partitions)`: sort in the canonical order. -/
def sortPartitions (l : List Partition) : List Partition :=
  l.insertionSort (fun a b => partitionLe a b = true)

/-- `PartitionMeta` sizes: nested map topic → partition index → size (bytes, ℚ for float64). -/
abbrev PartitionMetaMap : Type := List (String × List (Int × ℚ))

/-- `PartitionMetaMap.Size` from the source: look up the topic, then the
partition; an error is returned if either is absent. -/
def Size (pmm : PartitionMetaMap) (p : Partition) : Except String ℚ :=
  match (List.lookup p.Topic pmm) with
  | none => .error ("Topic " ++ p.Topic ++ " not found in partition metadata")
  | some t =>
    match (List.lookup p.Partition t) with
    | none => .error ("Partition " ++ toString p.Partition ++ " not found in partition metadata")
    | some m => .ok m

/-- `partitionsBySize.Less` from the source: size descending (sizes that fail
to resolve read as 0, matching the ignored error), tie broken by partition
index ascending.  `bySizeLe` is the reflexive closure established by sorting. -/
def bySizeLe (pmm : PartitionMetaMap) (p q : Partition) : Bool :=
  let s1 := match Size pmm p with | .ok s => s | .error _ => 0
  let s2 := match Size pmm q with | .ok s => s | .error _ => 0
  if s1 > s2 then true
  else if s1 < s2 then false
  else p.Partition ≤ q.Partition

/-- Sort partitions by size (storage strategy pre-pass). -/
def sortBySize (pmm : PartitionMetaMap) (l : List Partition) : List Partition :=
  l.insertionSort (fun a b => bySizeLe pmm a b = true)

/-- `PartitionMapFromString` parses JSON and sorts the result canonically.
`encoding/json.Unmarshal` is Go standard library code, external to this
repository; the embedding takes the decoded map as its argument and performs
the repository's own post-parse step (the canonical sort). -/
def PartitionMapFromParsed (decoded : PartitionMap) : PartitionMap :=
  { decoded with Partitions := sortPartitions decoded.Partitions }

/-- `SetReplication` from the source: 0 is a no-op; otherwise truncate
replica sets longer than r and pad shorter ones with stub broker ID 0. -/
def SetReplication (pm : PartitionMap) (r : Nat) : PartitionMap :=
  if r = 0 then pm
  else
    { pm with Partitions := pm.Partitions.map (fun p =>
        let l := p.Replicas.length
        if l > r then { p with Replicas := p.Replicas.take r }
        else if l < r then { p with Replicas := p.Replicas ++ List.replicate (r - l) 0 }
        else p) }

/-- Broker record. The broker source file is not part of the provided
sources; fields follow the spec (§3) and the package's own tests
(`brokers_test.go`), which construct brokers with exactly these fields. -/
structure Broker where
  ID : Int
  Locality : String := ""
  Used : Nat := 0
  Tags : List (String × String) := []
  StorageFree : ℚ := 0
  New : Bool := false
  Missing : Bool := false
  OldMissing : Bool := false
  Replace : Bool := false
deriving DecidableEq, Repr

/-- `BrokerMap`: a Go map from broker ID to broker, modelled as an
association list; `List.lookup` plays the role of `bm[id]`. -/
abbrev BrokerMap : Type := List (Int × Broker)

/-- Well-formedness of the Go map: keys are unique and each broker's `ID`
field equals its key (both invariants hold for every map the Go code
builds). -/
def bmWF (bm : BrokerMap) : Prop :=
  (bm.map Prod.fst).Nodup ∧ ∀ e ∈ bm, e.2.ID = e.1

instance (bm : BrokerMap) : Decidable (bmWF bm) := by
  unfold bmWF; infer_instance

/-- Modelled from the spec: `FilteredList()` — the brokers excluding the
stub ID 0 and any with `replace==true` (the broker source file is absent
from the provided sources). -/
def filteredList (bm : BrokerMap) : List Broker :=
  (bm.filter (fun e => decide (e.2.ID ≠ 0) && !e.2.Replace)).map Prod.snd

/-- Modelled from the spec: `List()` — all brokers of the map. -/
def bmList (bm : BrokerMap) : List Broker := bm.map Prod.snd

/-- Modelled from the spec: `Mean()` — arithmetic mean of `storage_free`
over the filtered list. -/
def brokerMapMean (bm : BrokerMap) : ℚ :=
  let fl := filteredList bm
  (fl.map Broker.StorageFree).sum / (fl.length : ℚ)

/-- `brokersByCount` ordering: ascending `Used`, ties by ascending ID
(reflexive closure; order fixed by `TestSortBrokerListByCount`). -/
def byCountLe (b1 b2 : Broker) : Bool :=
  if b1.Used < b2.Used then true
  else if b2.Used < b1.Used then false
  else b1.ID ≤ b2.ID

/-- `brokersByStorage` ordering: descending `StorageFree`, ties by
ascending ID (reflexive closure; order fixed by
`TestSortBrokerListByStorage`). -/
def byStorageLe (b1 b2 : Broker) : Bool :=
  if b2.StorageFree < b1.StorageFree then true
  else if b1.StorageFree < b2.StorageFree then false
  else b1.ID ≤ b2.ID

/-- Sort a broker list by count order. Go's `sort.Sort` is not stable, so
only the established order matters; an insertion sort realises it. -/
def sortByCount (bl : List Broker) : List Broker :=
  bl.insertionSort (fun a b => byCountLe a b = true)

/-- `SortByStorage`. -/
def sortByStorage (bl : List Broker) : List Broker :=
  bl.insertionSort (fun a b => byStorageLe a b = true)

/-- Modelled stand-in for Go's `math/rand` step function (the real
generator is standard-library code, external to this repository). Only
determinism in the seed matters to the verified properties. -/
def lcgNext (s : Nat) : Nat := (s * 1103515245 + 12345) % 2147483648

/-- Modelled from the spec: `rand.Seed(seed)` replaces the global
generator state with a function of the seed alone. -/
def randSeedState (seed : Int) : Nat := seed.natAbs

/-- Modelled stand-in for `rand.Shuffle`: a deterministic permutation of
the list driven by the generator state, which is then advanced. -/
def randShuffleList {α : Type} (g : Nat) (l : List α) : List α × Nat :=
  (l.rotate g, lcgNext g)

/-- Consecutive runs of brokers with equal `Used` (the list fed to this is
already sorted by count, so runs are the `Used`-groups of the spec). -/
def groupRuns : List Broker → List (List Broker)
  | [] => []
  | b :: t =>
    match groupRuns t with
    | [] => [[b]]
    | [] :: gs => [b] :: gs
    | (c :: g) :: gs =>
      if b.Used = c.Used then (b :: c :: g) :: gs else [b] :: (c :: g) :: gs

/-- Modelled from the spec: `SortPseudoShuffle(seed)` — sort by count,
group brokers by `Used`, and deterministically shuffle within each group
using a generator freshly seeded from `seed`. -/
def SortPseudoShuffle (bl : List Broker) (seed : Int) : List Broker :=
  ((groupRuns (sortByCount bl)).map (fun grp => grp.rotate (randSeedState seed))).flatten

/-- Constraints derived from a replica set (spec §2/§4.2). -/
structure Constraints where
  localities : List String
  tags : List (String × String)
  requestSize : ℚ
deriving Repr

/-- Modelled from the spec: `MergeConstraints` folds a broker list into one
constraints value by unioning localities and tag bindings; stub brokers
(ID 0) are skipped; `requestSize` starts at 0. -/
def mergeConstraints (rs : List Broker) : Constraints :=
  let rs' := rs.filter (fun b => decide (b.ID ≠ 0))
  { localities := rs'.map Broker.Locality
    tags := rs'.foldr (fun b acc => b.Tags ++ acc) []
    requestSize := 0 }

/-- Modelled from the spec: constraint admissibility — the broker's
locality must not be in the constraint locality set; for every constrained
tag key the broker carries, the values must match; and when a request size
is set the broker must have at least that much free storage. -/
def passesConstraints (c : Constraints) (b : Broker) : Bool :=
  (!(c.localities.contains b.Locality)) &&
  (c.tags.all (fun kv =>
    match List.lookup kv.1 b.Tags with
    | none => true
    | some v => v == kv.2)) &&
  (if (0:ℚ) < c.requestSize then decide (c.requestSize ≤ b.StorageFree) else true)

/-- Modelled from the spec: `BestCandidate(constraints, strategy, seed)` —
order the list (pseudo-shuffled by the seed for the count strategy,
storage-ranked otherwise), take the first admissible broker, and, in the
storage strategy with a set request size, immediately debit the chosen
broker's free storage in the list. Fails when no broker qualifies. -/
def bestCandidate (bl : List Broker) (c : Constraints) (strategy : String) (seed : Int) :
    Except String (Broker × List Broker) :=
  let sorted := if strategy = "count" then SortPseudoShuffle bl seed else sortByStorage bl
  match sorted.find? (passesConstraints c) with
  | none => .error "insufficient free brokers for selection"
  | some b =>
    let bl' :=
      if strategy = "storage" && decide ((0:ℚ) < c.requestSize) then
        bl.map (fun x => if x.ID = b.ID then { x with StorageFree := x.StorageFree - c.requestSize } else x)
      else bl
    .ok (b, bl')

/-- Soft-error format `"{topic} p{idx}: {reason}"` from the source. -/
def errString (p : Partition) (e : String) : String :=
  p.Topic ++ " p" ++ toString p.Partition ++ ": " ++ e

/-- The `"configured to zero replicas"` post-check shared by both
placement functions. -/
def zeroReplicaErrs (parts : List Partition) : List String :=
  (parts.filter (fun p => p.Replicas.isEmpty)).map
    (fun p => errString p "configured to zero replicas")

/-- Loop state of `placeByPosition`: the new partition list being built,
the cumulative skip counter, the soft-error list, and the filtered broker
list (threaded because `bestCandidate` may debit storage in it). -/
structure PPState where
  newParts : List Partition
  skipped : Nat
  errs : List String
  bl : List Broker

/-- `bestCandidate`-and-append step shared by the placement code paths:
a soft error is recorded on failure, otherwise the chosen broker's ID is
appended to the new replica set at index `n`. -/
def placeFetch (strategy : String) (seed : Int) (n : Nat) (partn cur : Partition)
    (c : Constraints) (st : PPState) : PPState :=
  match bestCandidate st.bl c strategy seed with
  | .error e => { st with errs := st.errs ++ [errString partn e] }
  | .ok (nb, bl') =>
    { st with bl := bl'
              newParts := st.newParts.set n { cur with Replicas := cur.Replicas ++ [nb.ID] } }

/-- First-pass creation of the new (empty-replica) partition in
`placeByPosition` (source lines 180–183). -/
def passZeroAdd (pass : Nat) (partn : Partition) (st : PPState) : PPState :=
  if pass = 0 then
    { st with newParts := st.newParts ++
        [{ Topic := partn.Topic, Partition := partn.Partition, Replicas := [] }] }
  else st

/-- One `n, partn` iteration of a `placeByPosition` pass (source lines
177–248). `none` models the Go panic on dereferencing `bm[bid]` for an
absent key. -/
def placeStep (bm : BrokerMap) (pmm : PartitionMetaMap) (strategy : String) (pass : Nat)
    (st : PPState) (np : Nat × Partition) : Option PPState :=
  let n := np.1
  let partn := np.2
  -- first pass: create the new partition
  let st := passZeroAdd pass partn st
  -- skip when this partition has no replica at this index
  if (pass : Int) > (partn.Replicas.length : Int) - 1 then
    some { st with skipped := st.skipped + 1 }
  else
    match partn.Replicas.get? pass with
    | none => none
    | some bid =>
      match List.lookup bid bm with
      | none => none
      | some b =>
        if !b.Replace then
          match st.newParts.get? n with
          | none => none
          | some cur =>
            some { st with newParts := st.newParts.set n { cur with Replicas := cur.Replicas ++ [bid] } }
        else
          match partn.Replicas.mapM (fun id => List.lookup id bm) with
          | none => none
          | some oldSet =>
            match st.newParts.get? n with
            | none => none
            | some cur =>
              match cur.Replicas.mapM (fun id => List.lookup id bm) with
              | none => none
              | some newSet =>
                let c := mergeConstraints (oldSet ++ newSet)
                if strategy = "storage" then
                  match Size pmm partn with
                  | .error e => some { st with errs := st.errs ++ [errString partn e] }
                  | .ok s =>
                    some (placeFetch strategy (Int.ofNat (pass * n) + 1) n partn cur { c with requestSize := s } st)
                else
                  some (placeFetch strategy (Int.ofNat (pass * n) + 1) n partn cur c st)

/-- One full pass of `placeByPosition` over all partitions. -/
def placePass (bm : BrokerMap) (pmm : PartitionMetaMap) (strategy : String)
    (parts : List Partition) (pass : Nat) (st : PPState) : Option PPState :=
  parts.enum.foldlM (placeStep bm pmm strategy pass) st

/-- The outer pass loop of `placeByPosition` (source line 176): repeat
passes while the cumulative skip counter is below the partition count.
The counter gains the full partition count on every pass once `pass`
reaches the maximal replica length, so at most `maxReplicaLen + 1` passes
run; the fuel passed by `placeByPosition` exceeds that bound, making the
fuel-exhaustion branch unreachable. -/
def placeLoop (bm : BrokerMap) (pmm : PartitionMetaMap) (strategy : String)
    (parts : List Partition) : Nat → Nat → PPState → Option PPState
  | 0, _, _ => none
  | fuel + 1, pass, st =>
    if st.skipped < parts.length then
      match placePass bm pmm strategy parts pass st with
      | none => none
      | some st' => placeLoop bm pmm strategy parts fuel (pass + 1) st'
    else some st

/-- Maximal replica-set length, used to bound the pass count. -/
def maxReplicaLen (parts : List Partition) : Nat :=
  parts.foldr (fun p m => max p.Replicas.length m) 0

/-- `placeByPosition` from the source: build a new map one replica index
at a time, then run the zero-replica post-check. -/
def placeByPosition (pm : PartitionMap) (bm : BrokerMap) (pmm : PartitionMetaMap)
    (strategy : String) : Option (PartitionMap × List String) :=
  let parts := pm.Partitions
  match placeLoop bm pmm strategy parts (maxReplicaLen parts + 2) 0
      { newParts := [], skipped := 0, errs := [], bl := filteredList bm } with
  | none => none
  | some st =>
    some ({ Version := 1, Partitions := st.newParts }, st.errs ++ zeroReplicaErrs st.newParts)

/-- One replica of one partition in `placeByPartition` (source lines
287–337); the state carries the new partition so far, the soft errors and
the threaded broker list. -/
def pbpStep (bm : BrokerMap) (pmm : PartitionMetaMap) (strategy : String) (partn : Partition)
    (acc : Partition × List String × List Broker) (bid : Int) :
    Option (Partition × List String × List Broker) :=
  let newPartn := acc.1
  let errs := acc.2.1
  let bl := acc.2.2
  match List.lookup bid bm with
  | none => none
  | some b =>
    if !b.Replace then
      some ({ newPartn with Replicas := newPartn.Replicas ++ [bid] }, errs, bl)
    else
      match partn.Replicas.mapM (fun id => List.lookup id bm) with
      | none => none
      | some oldSet =>
        match newPartn.Replicas.mapM (fun id => List.lookup id bm) with
        | none => none
        | some newSet =>
          let c := mergeConstraints (oldSet ++ newSet)
          let fetch := fun (c : Constraints) =>
            match bestCandidate bl c strategy 1 with
            | .error e => some (newPartn, errs ++ [errString partn e], bl)
            | .ok (nb, bl') =>
              some ({ newPartn with Replicas := newPartn.Replicas ++ [nb.ID] }, errs, bl')
          if strategy = "storage" then
            match Size pmm partn with
            | .error e => some (newPartn, errs ++ [errString partn e], bl)
            | .ok s => fetch { c with requestSize := s }
          else
            fetch c

/-- One partition of `placeByPartition`: fold over its replica list, then
append the built partition to the new map. -/
def pbpPartitionStep (bm : BrokerMap) (pmm : PartitionMetaMap) (strategy : String)
    (acc : List Partition × List String × List Broker) (partn : Partition) :
    Option (List Partition × List String × List Broker) :=
  match partn.Replicas.foldlM (pbpStep bm pmm strategy partn)
      ({ Topic := partn.Topic, Partition := partn.Partition, Replicas := [] }, acc.2.1, acc.2.2) with
  | none => none
  | some (newPartn, errs, bl) => some (acc.1 ++ [newPartn], errs, bl)

/-- `placeByPartition` from the source: all replacement slots of one
partition are filled in the same iteration. -/
def placeByPartition (pm : PartitionMap) (bm : BrokerMap) (pmm : PartitionMetaMap)
    (strategy : String) : Option (PartitionMap × List String) :=
  match pm.Partitions.foldlM (pbpPartitionStep bm pmm strategy) ([], [], filteredList bm) with
  | none => none
  | some (newParts, errs, _) =>
    some ({ Version := 1, Partitions := newParts }, errs ++ zeroReplicaErrs newParts)

/-- One iteration of `shuffle`: `rand.Seed(int64(n<<2))` discards the
incoming generator state, then `rand.Shuffle` permutes partition `n`'s
replica list. -/
def shuffleStep (acc : List Partition × Nat) (np : Nat × Partition) : List Partition × Nat :=
  let g1 := randSeedState (Int.ofNat (np.1 <<< 2))
  let r := randShuffleList g1 np.2.Replicas
  (acc.1 ++ [{ np.2 with Replicas := r.1 }], r.2)

/-- `shuffle` from the source: for each partition `n`, reseed the global
generator with `n<<2` and shuffle that partition's replica list. -/
def shuffle (pm : PartitionMap) (g : Nat) : PartitionMap × Nat :=
  let r := pm.Partitions.enum.foldl shuffleStep ([], g)
  ({ pm with Partitions := r.1 }, r.2)

/-- The invalid-strategy hard error of `Rebuild`. -/
def invalidStrategyMsg (strategy : String) : String :=
  "Invalid rebuild strategy '" ++ strategy ++ "'"

/-- `Rebuild` from the source. The outer `Option` models the Go panic; the
inner `Option PartitionMap` is the possibly-nil result map; the generator
state is threaded for the storage-strategy shuffle. -/
def Rebuild (pm : PartitionMap) (bm : BrokerMap) (pmm : PartitionMetaMap)
    (strategy : String) (g : Nat) : Option (Option PartitionMap × List String) × Nat :=
  if strategy = "count" then
    match placeByPosition { pm with Partitions := sortPartitions pm.Partitions } bm pmm strategy with
    | none => (none, g)
    | some (m, errs) =>
      (some (some { m with Partitions := sortPartitions m.Partitions }, errs), g)
  else if strategy = "storage" then
    match placeByPartition { pm with Partitions := sortBySize pmm pm.Partitions } bm pmm strategy with
    | none => (none, g)
    | some (m, errs) =>
      let r := shuffle m g
      (some (some { r.1 with Partitions := sortPartitions r.1.Partitions }, errs), r.2)
  else
    (some (none, [invalidStrategyMsg strategy]), g)

/-- `relocation` from rebalance_steps.go. -/
structure Reloc where
  partition : Partition
  destination : Int
deriving DecidableEq, Repr

/-- `relocationPlan`: topic → partition index → (source, destination). -/
abbrev RelocationPlan : Type := List (String × List (Int × (Int × Int)))

/-- Replace-or-append update of an association list (Go map assignment). -/
def assocSet {α β : Type} [BEq α] : List (α × β) → α → β → List (α × β)
  | [], k, v => [(k, v)]
  | (a, b) :: t, k, v => if a == k then (a, v) :: t else (a, b) :: assocSet t k v

/-- `relocationPlan.add` from the source: create the topic's inner map if
absent, then record the (source, destination) pair for the partition. -/
def planAdd (r : RelocationPlan) (p : Partition) (ids : Int × Int) : RelocationPlan :=
  let inner := (List.lookup p.Topic r).getD []
  assocSet r p.Topic (assocSet inner p.Partition ids)

/-- `relocationPlan.isPlanned` from the source. -/
def isPlanned (r : RelocationPlan) (p : Partition) : Bool × (Int × Int) :=
  match List.lookup p.Topic r with
  | none => (false, (0, 0))
  | some m =>
    match List.lookup p.Partition m with
    | none => (false, (0, 0))
    | some pr => (true, pr)

/-- `Mappings`: broker ID → partitions holding a replica there (the
mappings source file is absent; spec §3). -/
abbrev Mappings : Type := List (Int × List Partition)

/-- Modelled from the spec: `LargestPartitions(broker, N, meta)` — up to N
largest partitions currently mapped to the broker, by size descending (the
error result of the source is discarded by the caller, which then iterates
an empty list). -/
def LargestPartitions (m : Mappings) (id : Int) (limit : Nat) (pmm : PartitionMetaMap) :
    List Partition :=
  match List.lookup id m with
  | none => []
  | some ps => (sortBySize pmm ps).take limit

/-- Modelled from the spec: `Mappings.Remove(broker, partition)` drops the
partition (keyed by topic and index) from the broker's list. -/
def mappingsRemove (m : Mappings) (id : Int) (p : Partition) : Mappings :=
  m.map (fun e =>
    if e.1 = id then
      (e.1, e.2.filter (fun q => !(q.Topic == p.Topic && q.Partition == p.Partition)))
    else e)

/-- Set a broker's free storage in the map (`brokers[id].StorageFree = v`
through the shared pointer). -/
def bmSetFree (bm : BrokerMap) (id : Int) (v : ℚ) : BrokerMap :=
  bm.map (fun e => if e.1 = id then (e.1, { e.2 with StorageFree := v }) else e)

/-- Append a relocation to `relos[sourceID]`. -/
def relosAppend (relos : List (Int × List Reloc)) (id : Int) (r : Reloc) :
    List (Int × List Reloc) :=
  assocSet relos id ((List.lookup id relos).getD [] ++ [r])

/-- `planRelocationsForBrokerParams` from the source (minus the cobra
flags, which become explicit arguments). -/
structure PlanParams where
  sourceID : Int
  relos : List (Int × List Reloc)
  mappings : Mappings
  brokers : BrokerMap
  partitionMeta : PartitionMetaMap
  plan : RelocationPlan
  pass : Nat
  topPartitionsLimit : Nat

/-- Observation of the single committed move of one
`planRelocationsForBroker` call: the partition, its size, the source and
destination free-storage values read at commit time, and the destination
ID. All five are values the Go code computes in the commit branch. -/
structure CommitInfo where
  part : Partition
  size : ℚ
  sFree : ℚ
  dFree : ℚ
  destID : Int

/-- Result of one `planRelocationsForBroker` call. -/
structure PlanResult where
  relos : List (Int × List Reloc)
  plan : RelocationPlan
  brokers : BrokerMap
  mappings : Mappings
  reloCount : Nat
  commit : Option CommitInfo

/-- Destination-broker selection of one `planRelocationsForBroker`
iteration (source lines 183–220): build the storage-sorted broker list,
then either pick the first same-locality broker other than the source
(locality-scoped), or the best storage candidate under the constraints of
the replica set minus the source (`BestCandidate`'s error is discarded, a
nil `dest` ends the planning). The outer `none` models the panic on
`brokers[id]` for an absent replica ID in the constraints branch; the
inner option is Go's possibly-nil `dest` pointer. -/
def prDest (localityScoped : Bool) (sourceID : Int) (targetLocality : String)
    (brokers : BrokerMap) (p : Partition) : Option (Option Broker) :=
  let brokerList := sortByStorage (bmList brokers)
  if localityScoped then
    some (brokerList.find? (fun b => b.Locality == targetLocality && b.ID != sourceID))
  else
    match (p.Replicas.filter (fun id => decide (id ≠ sourceID))).mapM
        (fun id => List.lookup id brokers) with
    | none => none
    | some replicaSet =>
      let c := mergeConstraints replicaSet
      some (match bestCandidate brokerList c "storage" 0 with
            | .error _ => none
            | .ok r => some r.1)

/-- The partition loop of `planRelocationsForBroker` (source lines
181–284): for each candidate partition pick a destination, stop planning
when none is found, skip the partition when a tolerance limit would be
violated, otherwise commit one move and break. -/
def prLoop (tolerance : ℚ) (localityScoped : Bool) (sourceID : Int)
    (targetLocality : String) (meanStorageFree : ℚ) (pmm : PartitionMetaMap) :
    List Partition → List (Int × List Reloc) → RelocationPlan → BrokerMap → Mappings →
    Nat → Option PlanResult
  | [], relos, plan, brokers, mappings, n =>
    some { relos := relos, plan := plan, brokers := brokers, mappings := mappings
           reloCount := n, commit := none }
  | p :: rest, relos, plan, brokers, mappings, n =>
    let pSize := match Size pmm p with | .ok s => s | .error _ => 0
    match prDest localityScoped sourceID targetLocality brokers p with
    | none => none
    | some none =>
      some { relos := relos, plan := plan, brokers := brokers, mappings := mappings
             reloCount := n, commit := none }
    | some (some dest) =>
      match List.lookup sourceID brokers with
      | none => none
      | some srcB =>
        let sourceFree := srcB.StorageFree + pSize
        let destFree := dest.StorageFree - pSize
        if sourceFree > meanStorageFree * (1 + tolerance) then
          prLoop tolerance localityScoped sourceID targetLocality meanStorageFree pmm
            rest relos plan brokers mappings n
        else if destFree < meanStorageFree * (1 - tolerance) then
          prLoop tolerance localityScoped sourceID targetLocality meanStorageFree pmm
            rest relos plan brokers mappings n
        else
          some { relos := relosAppend relos sourceID { partition := p, destination := dest.ID }
                 plan := planAdd plan p (sourceID, dest.ID)
                 brokers := bmSetFree (bmSetFree brokers sourceID sourceFree) dest.ID destFree
                 mappings := mappingsRemove mappings sourceID p
                 reloCount := n + 1
                 commit := some { part := p, size := pSize, sFree := srcB.StorageFree
                                  dFree := dest.StorageFree, destID := dest.ID } }

/-- `planRelocationsForBroker` from the source: compute the mean once, take
the source broker's largest partitions, and run the planning loop. `none`
models the panic on reading `brokers[sourceID].Locality` for an absent
source, or `brokers[id]` for an absent replica in the constraints branch. -/
def planRelocationsForBroker (tolerance : ℚ) (localityScoped : Bool)
    (params : PlanParams) : Option PlanResult :=
  let meanStorageFree := brokerMapMean params.brokers
  let topPartn := LargestPartitions params.mappings params.sourceID
    params.topPartitionsLimit params.partitionMeta
  match List.lookup params.sourceID params.brokers with
  | none => none
  | some srcB =>
    prLoop tolerance localityScoped params.sourceID srcB.Locality meanStorageFree
      params.partitionMeta topPartn params.relos params.plan params.brokers params.mappings 0

/-- `applyRelocationPlan` from the source (the optional
`SimpleLeaderOptimization` pass lives in the absent broker source and is
behind a flag; the embedding is the flag-off path): for each partition
with a planned `(source, dest)` pair, every replica equal to `source` is
overwritten with `dest`. -/
def applyRelocationPlan (pm : PartitionMap) (plan : RelocationPlan) : PartitionMap :=
  { pm with Partitions := pm.Partitions.map (fun partn =>
      let pl := isPlanned plan partn
      if pl.1 then
        { partn with Replicas := partn.Replicas.map (fun r => if r = pl.2.1 then pl.2.2 else r) }
      else partn) }

/-- The first-occurrence replacement the spec describes for
`applyRelocationPlan` ("replace the first occurrence of `source` in its
replica list with `dest`"), stated from the spec's words for comparison
with the source's behaviour. -/
def replaceFirst : List Int → Int → Int → List Int
  | [], _, _ => []
  | r :: t, s, d => if r = s then d :: t else r :: replaceFirst t s d

/-- Replica comparison loop inside `equal`: first pointwise mismatch yields
the "replica" reason. -/
def replicasDiff : List Int → List Int → Option String
  | a :: t1, b :: t2 => if a ≠ b then some "replica" else replicasDiff t1 t2
  | _, _ => none

/-- The iterative comparison inside `equal`: first mismatching partition
yields its typed reason. -/
def partsDiff : List Partition → List Partition → Option String
  | p1 :: t1, p2 :: t2 =>
    if p1.Topic ≠ p2.Topic then some "topic order"
    else if p1.Partition ≠ p2.Partition then some "partition order"
    else if p1.Replicas.length ≠ p2.Replicas.length then some "replica list"
    else
      match replicasDiff p1.Replicas p2.Replicas with
      | some e => some e
      | none => partsDiff t1 t2
  | _, _ => none

/-- `equal` from the source: crude length/version checks, then the iterative
comparison; returns the Go pair (bool, error-reason). -/
def equal (pm pm2 : PartitionMap) : Bool × Option String :=
  if pm.Partitions.length ≠ pm2.Partitions.length then (false, some "partitions len")
  else if pm.Version ≠ pm2.Version then (false, some "version")
  else
    match partsDiff pm.Partitions pm2.Partitions with
    | some e => (false, some e)
    | none => (true, none)

/-- Predicate "this replica ID resolves to a broker that is not marked for
replacement" (the property the rebuild output is claimed to satisfy). -/
def brokerOk (bm : BrokerMap) (bid : Int) : Bool :=
  match List.lookup bid bm with
  | some b => !b.Replace
  | none => false

/-! Concrete fixtures used by witnesses and counterexamples. -/

/-- Three partitions with replica lengths 2, 2, 5: the input on which the
cumulative skip counter ends the pass loop early. -/
def pmC3 : PartitionMap :=
  { Version := 1
    Partitions :=
      [{ Topic := "t", Partition := 0, Replicas := [1, 2] },
       { Topic := "t", Partition := 1, Replicas := [1, 2] },
       { Topic := "t", Partition := 2, Replicas := [1, 2, 3, 4, 5] }] }

/-- Brokers 1..5, none marked for replacement. -/
def bmC3 : BrokerMap :=
  [(1, { ID := 1 }), (2, { ID := 2 }), (3, { ID := 3 }), (4, { ID := 4 }), (5, { ID := 5 })]

/-- A partition map whose sole replica is the stub ID 0. -/
def pmC9 : PartitionMap :=
  { Version := 1, Partitions := [{ Topic := "t", Partition := 0, Replicas := [0] }] }

/-- A broker map with no entry for ID 0. -/
def bmC9 : BrokerMap := [(1, { ID := 1 })]

/-- One-partition map for the rebuild witness. -/
def pmW : PartitionMap :=
  { Version := 1, Partitions := [{ Topic := "t", Partition := 0, Replicas := [1] }] }

/-- One healthy broker for the rebuild witness. -/
def bmW : BrokerMap := [(1, { ID := 1 })]

/-- Mixed replica lengths 2, 3, 4 for the SetReplication witness. -/
def pm7 : PartitionMap :=
  { Version := 1
    Partitions :=
      [{ Topic := "t", Partition := 0, Replicas := [1, 2] },
       { Topic := "t", Partition := 1, Replicas := [1, 2, 3] },
       { Topic := "t", Partition := 2, Replicas := [1, 2, 3, 4] }] }

/-- A replica list with a duplicated source ID. -/
def pm4 : PartitionMap :=
  { Version := 1, Partitions := [{ Topic := "t", Partition := 0, Replicas := [1, 1, 2] }] }

/-- A plan moving broker 1 to broker 3 for partition ("t", 0). -/
def plan4 : RelocationPlan := [("t", [(0, (1, 3))])]

/-- Rebalance scenario with a zero-size partition: the partition is absent
from the metadata, so the ignored `Size` error leaves `pSize = 0`. Both
brokers share locality "a" and 100 free. -/
def paramsC1 : PlanParams :=
  { sourceID := 1
    relos := []
    mappings := [(1, [{ Topic := "t", Partition := 0, Replicas := [1, 2] }])]
    brokers := [(1, { ID := 1, Locality := "a", StorageFree := 100 }),
                (2, { ID := 2, Locality := "a", StorageFree := 100 })]
    partitionMeta := []
    plan := []
    pass := 0
    topPartitionsLimit := 5 }

/-- Rebalance scenario with a positive-size partition (30 bytes), source
free 100, destination free 200, both in locality "a". -/
def paramsC1w : PlanParams :=
  { sourceID := 1
    relos := []
    mappings := [(1, [{ Topic := "t", Partition := 0, Replicas := [1, 2] }])]
    brokers := [(1, { ID := 1, Locality := "a", StorageFree := 100 }),
                (2, { ID := 2, Locality := "a", StorageFree := 200 })]
    partitionMeta := [("t", [(0, 30)])]
    plan := []
    pass := 0
    topPartitionsLimit := 5 }

/-- The partition moved in the positive-size rebalance scenario. -/
def pC1w : Partition := { Topic := "t", Partition := 0, Replicas := [1, 2] }

/-- The commit observed in the positive-size rebalance scenario. -/
def cW : CommitInfo := { part := pC1w, size := 30, sFree := 100, dFree := 200, destID := 2 }

/-- The full result of the positive-size rebalance scenario. -/
def stW : PlanResult :=
  { relos := [(1, [{ partition := pC1w, destination := 2 }])]
    plan := [("t", [(0, (1, 2))])]
    brokers := [(1, { ID := 1, Locality := "a", StorageFree := 130 }),
                (2, { ID := 2, Locality := "a", StorageFree := 170 })]
    mappings := [(1, [])]
    reloCount := 1
    commit := some cW }

/-- A duplicate-free one-partition map for the relocation-plan witness. -/
def pm4w : PartitionMap :=
  { Version := 1, Partitions := [{ Topic := "t", Partition := 0, Replicas := [1, 4, 2] }] }

/-- Rebalance scenario in which the best storage candidate is the source
broker itself: partition ("t", 0, replicas [1, 2]) of size 10 sits on
source broker 1 (locality "a", 120 free); the only other broker, 2, is in
locality "b" with 80 free, so the constraints derived from the replica set
minus the source exclude locality "b" only, and the storage-sorted list
puts broker 1 first. -/
def paramsC1s : PlanParams :=
  { sourceID := 1
    relos := []
    mappings := [(1, [{ Topic := "t", Partition := 0, Replicas := [1, 2] }])]
    brokers := [(1, { ID := 1, Locality := "a", StorageFree := 120 }),
                (2, { ID := 2, Locality := "b", StorageFree := 80 })]
    partitionMeta := [("t", [(0, 10)])]
    plan := []
    pass := 0
    topPartitionsLimit := 5 }

/-- The dimension on which two unequal partitions disagree, stated from
the spec's words for the `Equal` mismatch taxonomy: first differing
topics, then differing partition indices, then differing replica-list
lengths, and otherwise a differing replica entry. -/
def mismatchReason (p1 p2 : Partition) : String :=
  if p1.Topic ≠ p2.Topic then "topic order"
  else if p1.Partition ≠ p2.Partition then "partition order"
  else if p1.Replicas.length ≠ p2.Replicas.length then "replica list"
  else "replica"

/-- "The reason `r` is the specific mismatch of the two maps": the crude
length and version checks pass, and at the first position where the
partition sequences disagree the mismatch dimension is `r` (spec-side
characterisation of the `Equal` reason). -/
def reasonIsSpecific (pm pm2 : PartitionMap) (r : String) : Prop :=
  pm.Partitions.length = pm2.Partitions.length ∧ pm.Version = pm2.Version ∧
  ∃ i p1 p2, (∀ j < i, pm.Partitions.get? j = pm2.Partitions.get? j) ∧
    pm.Partitions.get? i = some p1 ∧ pm2.Partitions.get? i = some p2 ∧
    p1 ≠ p2 ∧ mismatchReason p1 p2 = r

/-- "Every broker of the list is admissible" invariant carried through the
placement loops. -/
def blOk (bm : BrokerMap) (bl : List Broker) : Prop := ∀ b ∈ bl, brokerOk bm b.ID = true

/-- "Every replica of every partition is admissible" invariant for the new
map being built. -/
def partsOk (bm : BrokerMap) (parts : List Partition) : Prop :=
  ∀ p ∈ parts, ∀ bid ∈ p.Replicas, brokerOk bm bid = true

/-- Combined invariant on a `placeByPosition` loop state. -/
def stOk (bm : BrokerMap) (st : PPState) : Prop := partsOk bm st.newParts ∧ blOk bm st.bl


/-! Supporting lemmas and claim theorems. -/

/-- C7: `SetReplication 0` leaves the partition map unchanged; for every
r > 0 the result is exactly the input with each replica set truncated to r
when longer and padded with stub broker ID 0 when shorter, topics and
partition indices unchanged, and every resulting replica set has length
exactly r. -/
theorem setReplication_replication_factor (pm : PartitionMap) (r : Nat) :
    SetReplication pm 0 = pm ∧
    (0 < r →
      SetReplication pm r =
        { Version := pm.Version
          Partitions := pm.Partitions.map (fun p =>
            { Topic := p.Topic, Partition := p.Partition
              Replicas :=
                if r < p.Replicas.length then p.Replicas.take r
                else p.Replicas ++ List.replicate (r - p.Replicas.length) 0 }) } ∧
      (SetReplication pm r).Partitions.all (fun q => q.Replicas.length == r) = true) := by
  have hmap : 0 < r →
      SetReplication pm r =
        { Version := pm.Version
          Partitions := pm.Partitions.map (fun p =>
            { Topic := p.Topic, Partition := p.Partition
              Replicas :=
                if r < p.Replicas.length then p.Replicas.take r
                else p.Replicas ++ List.replicate (r - p.Replicas.length) 0 }) } := by
    intro hr
    unfold SetReplication
    rw [if_neg (Nat.pos_iff_ne_zero.mp hr)]
    refine congrArg (PartitionMap.mk pm.Version) ?_
    refine List.map_congr_left ?_
    intro p _
    by_cases h1 : p.Replicas.length > r
    · rw [if_pos h1, if_pos h1]
    · rw [if_neg h1]
      by_cases h2 : p.Replicas.length < r
      · rw [if_pos h2, if_neg (by omega : ¬ r < p.Replicas.length)]
      · rw [if_neg h2, if_neg (by omega : ¬ r < p.Replicas.length)]
        have : r - p.Replicas.length = 0 := by omega
        rw [this, List.replicate_zero, List.append_nil]
  refine ⟨by simp [SetReplication], fun hr => ⟨hmap hr, ?_⟩⟩
  rw [hmap hr]
  simp only [List.all_eq_true, List.mem_map]
  rintro q ⟨p, _, rfl⟩
  simp only [beq_iff_eq]
  by_cases h1 : r < p.Replicas.length
  · rw [if_pos h1]
    simp [List.length_take]
    omega
  · rw [if_neg h1]
    simp [List.length_append, List.length_replicate]
    omega

theorem replicasDiff_mem (r1 r2 : List Int) :
    replicasDiff r1 r2 = none ∨ replicasDiff r1 r2 = some "replica" := by
  induction r1 generalizing r2 with
  | nil => cases r2 <;> simp [replicasDiff]
  | cons a t ih =>
    cases r2 with
    | nil => simp [replicasDiff]
    | cons b t2 =>
      simp only [replicasDiff]
      split_ifs with h
      · right; rfl
      · exact ih t2

theorem replicasDiff_none_iff (r1 r2 : List Int) (h : r1.length = r2.length) :
    (replicasDiff r1 r2 = none ↔ r1 = r2) := by
  induction r1 generalizing r2 with
  | nil =>
    cases r2 with
    | nil => simp [replicasDiff]
    | cons b t2 => simp at h
  | cons a t ih =>
    cases r2 with
    | nil => simp at h
    | cons b t2 =>
      simp only [replicasDiff]
      split_ifs with hab
      · simp [hab]
      · push_neg at hab
        simp only [List.length_cons, Nat.add_right_cancel_iff] at h
        rw [ih t2 h]
        simp [hab]

theorem partsDiff_mem (l1 l2 : List Partition) :
    partsDiff l1 l2 ∈ ([none, some "topic order", some "partition order",
      some "replica list", some "replica"] : List (Option String)) := by
  induction l1 generalizing l2 with
  | nil => cases l2 <;> simp [partsDiff]
  | cons p1 t1 ih =>
    cases l2 with
    | nil => simp [partsDiff]
    | cons p2 t2 =>
      simp only [partsDiff]
      split_ifs with h1 h2 h3
      · simp
      · simp
      · simp
      · rcases replicasDiff_mem p1.Replicas p2.Replicas with h | h
        · rw [h]; exact ih t2
        · rw [h]; simp

theorem partsDiff_none_iff (l1 l2 : List Partition) (h : l1.length = l2.length) :
    (partsDiff l1 l2 = none ↔ l1 = l2) := by
  induction l1 generalizing l2 with
  | nil =>
    cases l2 with
    | nil => simp [partsDiff]
    | cons p2 t2 => simp at h
  | cons p1 t1 ih =>
    cases l2 with
    | nil => simp at h
    | cons p2 t2 =>
      simp only [List.length_cons, Nat.add_right_cancel_iff] at h
      simp only [partsDiff]
      split_ifs with h1 h2 h3
      · constructor
        · intro hc; cases hc
        · rintro hc; injection hc with hp ht; exact absurd (congrArg Partition.Topic hp) h1
      · constructor
        · intro hc; cases hc
        · rintro hc; injection hc with hp ht; exact absurd (congrArg Partition.Partition hp) h2
      · constructor
        · intro hc; cases hc
        · rintro hc; injection hc with hp ht
          exact absurd (congrArg (fun q => q.Replicas.length) hp) h3
      · rcases replicasDiff_mem p1.Replicas p2.Replicas with hr | hr
        · rw [hr]
          have hrep : p1.Replicas = p2.Replicas :=
            (replicasDiff_none_iff _ _ (not_ne_iff.mp h3)).mp hr
          push_neg at h1 h2
          have hp12 : p1 = p2 := by
            cases p1; cases p2
            simp only [Partition.mk.injEq]
            exact ⟨h1, h2, hrep⟩
          rw [ih t2 h, hp12]
          simp
        · rw [hr]
          constructor
          · intro hc; exact absurd hc (by simp)
          · rintro hc
            injection hc with hp ht
            have hn : replicasDiff p1.Replicas p2.Replicas = none := by
              rw [congrArg Partition.Replicas hp]
              exact (replicasDiff_none_iff _ _ rfl).mpr rfl
            rw [hn] at hr; exact absurd hr (by simp)

theorem replicasDiff_some_iff (r1 r2 : List Int) (h : r1.length = r2.length) :
    (replicasDiff r1 r2 = some "replica" ↔ r1 ≠ r2) := by
  rcases replicasDiff_mem r1 r2 with hm | hm
  · rw [hm]
    constructor
    · intro hc; exact absurd hc (by simp)
    · intro hne; exact absurd ((replicasDiff_none_iff r1 r2 h).mp hm) hne
  · rw [hm]
    constructor
    · intro _ he
      rw [he] at hm
      have hr2 : replicasDiff r2 r2 = none := (replicasDiff_none_iff r2 r2 rfl).mpr rfl
      rw [hr2] at hm
      exact Option.noConfusion hm
    · intro _; rfl

theorem partsDiff_some_iff (l1 l2 : List Partition) (r : String) :
    partsDiff l1 l2 = some r ↔
      ∃ i p1 p2, (∀ j < i, l1.get? j = l2.get? j) ∧
        l1.get? i = some p1 ∧ l2.get? i = some p2 ∧ p1 ≠ p2 ∧ mismatchReason p1 p2 = r := by
  induction l1 generalizing l2 with
  | nil =>
    constructor
    · intro h
      cases l2 <;> simp [partsDiff] at h
    · rintro ⟨i, p1, p2, hpre, hg1, hg2, hne, hr⟩
      rw [show ([] : List Partition).get? i = none from rfl] at hg1
      exact Option.noConfusion hg1
  | cons p1 t1 ih =>
    cases l2 with
    | nil =>
      constructor
      · intro h
        simp [partsDiff] at h
      · rintro ⟨i, q1, q2, hpre, hg1, hg2, hne, hr⟩
        rw [show ([] : List Partition).get? i = none from rfl] at hg2
        exact Option.noConfusion hg2
    | cons p2 t2 =>
      have hhead : ∀ (r' : String), mismatchReason p1 p2 = r' → p1 ≠ p2 →
          (some r' = some r ↔
            ∃ i q1 q2, (∀ j < i, (p1 :: t1).get? j = (p2 :: t2).get? j) ∧
              (p1 :: t1).get? i = some q1 ∧ (p2 :: t2).get? i = some q2 ∧ q1 ≠ q2 ∧
              mismatchReason q1 q2 = r) := by
        intro r' hmr hne
        constructor
        · intro hsr
          injection hsr with hsr
          exact ⟨0, p1, p2, fun j hj => absurd hj (Nat.not_lt_zero j), rfl, rfl,
            hne, hmr.trans hsr⟩
        · rintro ⟨i, q1, q2, hpre, hg1, hg2, hne2, hr2⟩
          cases i with
          | zero =>
            simp only [List.get?_cons_zero, Option.some.injEq] at hg1 hg2
            rw [← hg1, ← hg2] at hr2
            rw [← hr2, hmr]
          | succ j =>
            have h0 := hpre 0 (Nat.succ_pos j)
            simp only [List.get?_cons_zero, Option.some.injEq] at h0
            exact absurd h0 hne
      simp only [partsDiff]
      split_ifs with h1 h2 h3
      · exact hhead "topic order" (by simp [mismatchReason, h1]) 
          (fun he => h1 (congrArg Partition.Topic he))
      · exact hhead "partition order" (by simp [mismatchReason, h1, h2])
          (fun he => h2 (congrArg Partition.Partition he))
      · exact hhead "replica list" (by simp [mismatchReason, h1, h2, h3])
          (fun he => h3 (congrArg (fun q => q.Replicas.length) he))
      · push_neg at h1 h2 h3
        cases hrd : replicasDiff p1.Replicas p2.Replicas with
        | some e =>
          have he : e = "replica" := by
            rcases replicasDiff_mem p1.Replicas p2.Replicas with hm | hm <;> rw [hrd] at hm
            · exact absurd hm (by simp)
            · injection hm
          subst he
          have hrne : p1.Replicas ≠ p2.Replicas := (replicasDiff_some_iff _ _ h3).mp hrd
          have hne : p1 ≠ p2 := fun he => hrne (congrArg Partition.Replicas he)
          exact hhead "replica" (by simp [mismatchReason, h1, h2, h3]) hne
        | none =>
          have hreq : p1.Replicas = p2.Replicas := (replicasDiff_none_iff _ _ h3).mp hrd
          have hpeq : p1 = p2 := by
            cases p1; cases p2
            simp only [Partition.mk.injEq]
            exact ⟨h1, h2, hreq⟩
          rw [ih t2]
          constructor
          · rintro ⟨i, q1, q2, hpre, hg1, hg2, hne2, hr2⟩
            refine ⟨i + 1, q1, q2, ?_, ?_, ?_, hne2, hr2⟩
            · intro j hj
              cases j with
              | zero => simp [hpeq]
              | succ k =>
                simp only [List.get?_cons_succ]
                exact hpre k (Nat.lt_of_succ_lt_succ hj)
            · simpa using hg1
            · simpa using hg2
          · rintro ⟨i, q1, q2, hpre, hg1, hg2, hne2, hr2⟩
            cases i with
            | zero =>
              simp only [List.get?_cons_zero, Option.some.injEq] at hg1 hg2
              rw [← hg1, ← hg2] at hne2
              exact absurd hpeq hne2
            | succ k =>
              refine ⟨k, q1, q2, ?_, by simpa using hg1, by simpa using hg2, hne2, hr2⟩
              intro j hj
              have := hpre (j + 1) (Nat.succ_lt_succ hj)
              simpa using this

/-- C8: `equal` returns true exactly when the two maps have the same
version and identical partition sequences (which forces the same length
and order); the reason is `none` exactly on success, "partitions len"
exactly on a length mismatch, "version" exactly on a version mismatch
with equal lengths, and each of the four iterative reasons is returned
exactly when the first position at which the partition sequences disagree
mismatches in that specific dimension (topic, partition index,
replica-list length, or a replica entry). -/
theorem equal_specific_mismatch (pm pm2 : PartitionMap) :
    ((equal pm pm2).1 = true ↔ pm.Version = pm2.Version ∧ pm.Partitions = pm2.Partitions) ∧
    (equal pm pm2).1 = ((equal pm pm2).2 == none) ∧
    ((equal pm pm2).2 = some "partitions len" ↔
      ¬ pm.Partitions.length = pm2.Partitions.length) ∧
    ((equal pm pm2).2 = some "version" ↔
      pm.Partitions.length = pm2.Partitions.length ∧ ¬ pm.Version = pm2.Version) ∧
    ((equal pm pm2).2 = some "topic order" ↔ reasonIsSpecific pm pm2 "topic order") ∧
    ((equal pm pm2).2 = some "partition order" ↔ reasonIsSpecific pm pm2 "partition order") ∧
    ((equal pm pm2).2 = some "replica list" ↔ reasonIsSpecific pm pm2 "replica list") ∧
    ((equal pm pm2).2 = some "replica" ↔ reasonIsSpecific pm pm2 "replica") := by
  have hreason : ∀ (x : String), x ∈ (["topic order", "partition order",
      "replica list", "replica"] : List String) →
      ((equal pm pm2).2 = some x ↔ reasonIsSpecific pm pm2 x) := by
    intro x hx
    unfold equal reasonIsSpecific
    split_ifs with h1 h2
    · constructor
      · intro hc
        injection hc with hc
        rw [← hc] at hx
        simp at hx
      · rintro ⟨hlen, _, _⟩
        exact absurd hlen h1
    · constructor
      · intro hc
        injection hc with hc
        rw [← hc] at hx
        simp at hx
      · rintro ⟨_, hver, _⟩
        exact absurd hver h2
    · push_neg at h1 h2
      cases hd : partsDiff pm.Partitions pm2.Partitions with
      | none =>
        simp only
        constructor
        · intro hc; exact absurd hc (by simp)
        · rintro ⟨_, _, hex⟩
          have := (partsDiff_some_iff pm.Partitions pm2.Partitions x).mpr hex
          rw [hd] at this
          exact Option.noConfusion this
      | some e =>
        simp only [Option.some.injEq]
        constructor
        · intro hc
          subst hc
          exact ⟨h1, h2, (partsDiff_some_iff _ _ _).mp hd⟩
        · rintro ⟨_, _, hex⟩
          have hx2 := (partsDiff_some_iff pm.Partitions pm2.Partitions x).mpr hex
          rw [hd] at hx2
          exact Option.some_inj.mp hx2
  have hA : (equal pm pm2).1 = true ↔ pm.Version = pm2.Version ∧ pm.Partitions = pm2.Partitions := by
    unfold equal
    split_ifs with h1 h2
    · simp only [Bool.false_eq_true, false_iff, not_and]
      intro _ hp
      exact absurd (congrArg List.length hp) h1
    · simp only [Bool.false_eq_true, false_iff, not_and]
      intro hv _
      exact absurd hv h2
    · push_neg at h1 h2
      cases hd : partsDiff pm.Partitions pm2.Partitions with
      | some e =>
        simp only [Bool.false_eq_true, false_iff, not_and]
        intro _ hp
        have hn : partsDiff pm.Partitions pm2.Partitions = none :=
          (partsDiff_none_iff _ _ h1).mpr hp
        rw [hn] at hd
        exact Option.noConfusion hd
      | none =>
        simp only [true_iff]
        exact ⟨h2, (partsDiff_none_iff _ _ h1).mp hd⟩
  have hB : (equal pm pm2).1 = ((equal pm pm2).2 == none) := by
    unfold equal
    split_ifs with h1 h2
    · simp
    · simp
    · cases hd : partsDiff pm.Partitions pm2.Partitions <;> simp
  have hC : (equal pm pm2).2 = some "partitions len" ↔
      ¬ pm.Partitions.length = pm2.Partitions.length := by
    unfold equal
    split_ifs with h1 h2
    · simp [h1]
    · constructor
      · intro hc; injection hc with hc; exact absurd hc (by simp)
      · intro hc; exact absurd h1 (by simpa using hc)
    · push_neg at h1
      cases hd : partsDiff pm.Partitions pm2.Partitions with
      | none =>
        simp only
        constructor
        · intro hc; exact absurd hc (by simp)
        · intro hc; exact absurd h1 hc
      | some e =>
        simp only [Option.some.injEq]
        constructor
        · intro hc
          subst hc
          have hm := partsDiff_mem pm.Partitions pm2.Partitions
          rw [hd] at hm
          simp at hm
        · intro hc; exact absurd h1 hc
  have hD : (equal pm pm2).2 = some "version" ↔
      pm.Partitions.length = pm2.Partitions.length ∧ ¬ pm.Version = pm2.Version := by
    unfold equal
    split_ifs with h1 h2
    · constructor
      · intro hc; injection hc with hc; exact absurd hc (by simp)
      · rintro ⟨hlen, _⟩; exact absurd hlen h1
    · push_neg at h1
      simp [h1, h2]
    · push_neg at h1 h2
      cases hd : partsDiff pm.Partitions pm2.Partitions with
      | none =>
        simp only
        constructor
        · intro hc; exact absurd hc (by simp)
        · rintro ⟨_, hv⟩; exact absurd h2 hv
      | some e =>
        simp only [Option.some.injEq]
        constructor
        · intro hc
          subst hc
          have hm := partsDiff_mem pm.Partitions pm2.Partitions
          rw [hd] at hm
          simp at hm
        · rintro ⟨_, hv⟩; exact absurd h2 hv
  exact ⟨hA, hB, hC, hD, hreason _ (by simp), hreason _ (by simp), hreason _ (by simp),
    hreason _ (by simp)⟩

theorem partitionLe_iff (p q : Partition) :
    partitionLe p q = true ↔
      (p.Topic < q.Topic ∨ (p.Topic = q.Topic ∧ p.Partition ≤ q.Partition)) := by
  unfold partitionLe
  split_ifs with h1 h2
  · simp [h1]
  · constructor
    · intro hc; exact absurd hc (by simp)
    · rintro (hlt | ⟨heq, _⟩)
      · exact absurd hlt h1
      · exact absurd (heq ▸ h2) (lt_irrefl _)
  · have heq : p.Topic = q.Topic := le_antisymm (not_lt.mp h2) (not_lt.mp h1)
    simp [heq]

theorem partitionLe_trans_lemma (a b c : Partition)
    (h1 : partitionLe a b = true) (h2 : partitionLe b c = true) : partitionLe a c = true := by
  rw [partitionLe_iff] at h1 h2 ⊢
  rcases h1 with h1 | ⟨he1, hp1⟩ <;> rcases h2 with h2 | ⟨he2, hp2⟩
  · exact Or.inl (lt_trans h1 h2)
  · exact Or.inl (he2 ▸ h1)
  · exact Or.inl (he1 ▸ h2)
  · exact Or.inr ⟨he1.trans he2, le_trans hp1 hp2⟩

theorem partitionLe_total_lemma (a b : Partition) :
    partitionLe a b = true ∨ partitionLe b a = true := by
  rw [partitionLe_iff, partitionLe_iff]
  rcases lt_trichotomy a.Topic b.Topic with h | h | h
  · exact Or.inl (Or.inl h)
  · rcases le_total a.Partition b.Partition with hp | hp
    · exact Or.inl (Or.inr ⟨h, hp⟩)
    · exact Or.inr (Or.inr ⟨h.symm, hp⟩)
  · exact Or.inr (Or.inl h)

/-- C10: `PartitionMapFromString` (modelled past the external JSON
decoder by `PartitionMapFromParsed`) returns a permutation of the decoded
partitions that is sorted in canonical order — topic ascending, then
partition index ascending — regardless of the order of the JSON entries,
with the version preserved. -/
theorem partitionMapFromString_canonical_order (pm : PartitionMap) :
    (PartitionMapFromParsed pm).Version = pm.Version ∧
    (PartitionMapFromParsed pm).Partitions.Perm pm.Partitions ∧
    (PartitionMapFromParsed pm).Partitions.Pairwise (fun a b =>
      a.Topic < b.Topic ∨ (a.Topic = b.Topic ∧ a.Partition ≤ b.Partition)) := by
  refine ⟨rfl, List.perm_insertionSort _ _, ?_⟩
  haveI : IsTotal Partition (fun a b => partitionLe a b = true) := ⟨partitionLe_total_lemma⟩
  haveI : IsTrans Partition (fun a b => partitionLe a b = true) := ⟨partitionLe_trans_lemma⟩
  have hs := List.sorted_insertionSort (fun a b => partitionLe a b = true) pm.Partitions
  exact List.Pairwise.imp (fun h => (partitionLe_iff _ _).mp h) hs
theorem map_subst_eq_replaceFirst (l : List Int) (s d : Int) (h : l.Nodup) :
    l.map (fun r => if r = s then d else r) = replaceFirst l s d := by
  induction l with
  | nil => rfl
  | cons a t ih =>
    rcases List.nodup_cons.mp h with ⟨hna, hnd⟩
    simp only [List.map_cons, replaceFirst]
    by_cases ha : a = s
    · rw [if_pos ha, if_pos ha]
      have : t.map (fun r => if r = s then d else r) = t.map id := by
        refine List.map_congr_left ?_
        intro x hx
        have hxne : x ≠ s := by
          intro hxs
          rw [hxs, ← ha] at hx
          exact hna hx
        simp [hxne]
      rw [this, List.map_id]
    · rw [if_neg ha, if_neg ha, ih hnd]

/-- C4 (amended): when every partition's replica list is duplicate-free
(the documented invariant), `applyRelocationPlan` replaces exactly the
first — indeed the only — occurrence of the planned source with the
destination in each planned partition and leaves every other partition
unchanged. Without the no-duplicate hypothesis the code replaces every
occurrence, not only the first (see the counterexample). -/
theorem applyRelocationPlan_first_occurrence (pm : PartitionMap) (plan : RelocationPlan)
    (hnd : ∀ partn ∈ pm.Partitions, partn.Replicas.Nodup) :
    (applyRelocationPlan pm plan).Version = pm.Version ∧
    (applyRelocationPlan pm plan).Partitions = pm.Partitions.map (fun partn =>
      if (isPlanned plan partn).1 then
        { partn with Replicas :=
            replaceFirst partn.Replicas (isPlanned plan partn).2.1 (isPlanned plan partn).2.2 }
      else partn) := by
  refine ⟨rfl, ?_⟩
  unfold applyRelocationPlan
  simp only
  refine List.map_congr_left ?_
  intro partn hp
  by_cases h : (isPlanned plan partn).1 = true
  · simp only [h, if_true]
    rw [map_subst_eq_replaceFirst _ _ _ (hnd partn hp)]
  · simp only [Bool.not_eq_true] at h
    simp [h]

/-- Witness for C4 (amended) on a duplicate-free replica list. -/
theorem applyRelocationPlan_first_occurrence_witness :
    (applyRelocationPlan pm4w plan4).Version = pm4w.Version ∧
    (applyRelocationPlan pm4w plan4).Partitions = pm4w.Partitions.map
      (fun partn =>
        if (isPlanned plan4 partn).1 then
          { partn with Replicas :=
              replaceFirst partn.Replicas (isPlanned plan4 partn).2.1 (isPlanned plan4 partn).2.2 }
        else partn) :=
  applyRelocationPlan_first_occurrence pm4w plan4 (by decide)

/-- C4 counterexample: with the duplicated replica list [1, 1, 2] and a
planned move 1 → 3, the code rewrites every occurrence, producing
[3, 3, 2], while first-occurrence replacement would produce [3, 1, 2]. -/
theorem applyRelocationPlan_all_occurrences_counterexample :
    (applyRelocationPlan pm4 plan4).Partitions =
      [{ Topic := "t", Partition := 0, Replicas := [3, 3, 2] }] ∧
    replaceFirst [1, 1, 2] 1 3 = [3, 1, 2] ∧
    ([3, 3, 2] : List Int) ≠ [3, 1, 2] := by decide

theorem foldl_shuffleStep_fst (l : List (Nat × Partition)) (acc : List Partition) (g1 g2 : Nat) :
    (l.foldl shuffleStep (acc, g1)).1 = (l.foldl shuffleStep (acc, g2)).1 := by
  cases l with
  | nil => rfl
  | cons x t =>
    simp only [List.foldl_cons]
    have hstep : shuffleStep (acc, g1) x = shuffleStep (acc, g2) x := rfl
    rw [hstep]

theorem shuffle_fst (pm : PartitionMap) (g1 g2 : Nat) :
    (shuffle pm g1).1 = (shuffle pm g2).1 := by
  unfold shuffle
  simp only
  exact congrArg (fun l => { pm with Partitions := l })
    (foldl_shuffleStep_fst pm.Partitions.enum [] g1 g2)

/-- C5: `Rebuild` is deterministic — its returned map and error list do
not depend on the ambient generator state, because every PRNG use is
freshly seeded from the documented formulas (`pass*n+1` inside the count
placement, the fixed seed 1 in storage placement, and `n<<2` before each
per-partition shuffle), so two runs on identical inputs agree. -/
theorem rebuild_deterministic (pm : PartitionMap) (bm : BrokerMap) (pmm : PartitionMetaMap)
    (strategy : String) (g1 g2 : Nat) :
    (Rebuild pm bm pmm strategy g1).1 = (Rebuild pm bm pmm strategy g2).1 := by
  unfold Rebuild
  split_ifs with h1 h2
  · cases placeByPosition { pm with Partitions := sortPartitions pm.Partitions } bm pmm strategy <;> rfl
  · cases hp : placeByPartition { pm with Partitions := sortBySize pmm pm.Partitions } bm pmm strategy with
    | none => rfl
    | some r =>
      obtain ⟨m, errs⟩ := r
      simp only
      rw [shuffle_fst m g1 g2]
  · rfl

theorem lookup_eq_of_mem {bm : BrokerMap} (hnd : (bm.map Prod.fst).Nodup)
    {e : Int × Broker} (he : e ∈ bm) : List.lookup e.1 bm = some e.2 := by
  induction bm with
  | nil => cases he
  | cons x t ih =>
    simp only [List.map_cons, List.nodup_cons] at hnd
    rcases List.mem_cons.mp he with rfl | hm
    · simp [List.lookup]
    · have hne : (e.1 == x.1) = false := by
        rw [beq_eq_false_iff_ne]
        intro h
        exact hnd.1 (h ▸ List.mem_map_of_mem Prod.fst hm)
      simp only [List.lookup, hne]
      exact ih hnd.2 hm

theorem filteredList_ok {bm : BrokerMap} (hwf : bmWF bm) : blOk bm (filteredList bm) := by
  intro b hb
  unfold filteredList at hb
  rcases List.mem_map.mp hb with ⟨e, he, rfl⟩
  rcases List.mem_filter.mp he with ⟨hmem, hcond⟩
  simp only [Bool.and_eq_true, decide_eq_true_eq, Bool.not_eq_true'] at hcond
  have hid : e.2.ID = e.1 := hwf.2 e hmem
  have hlk : List.lookup e.2.ID bm = some e.2 := by
    rw [hid]; exact lookup_eq_of_mem hwf.1 hmem
  unfold brokerOk
  rw [hlk]
  simp [hcond.2]

theorem bmList_lookup {bm : BrokerMap} (hwf : bmWF bm) {b : Broker} (hb : b ∈ bmList bm) :
    List.lookup b.ID bm = some b := by
  rcases List.mem_map.mp hb with ⟨e, he, rfl⟩
  rw [hwf.2 e he]
  exact lookup_eq_of_mem hwf.1 he

theorem flatten_groupRuns (l : List Broker) : (groupRuns l).flatten = l := by
  induction l with
  | nil => rfl
  | cons b t ih =>
    unfold groupRuns
    cases hgr : groupRuns t with
    | nil => rw [hgr] at ih; simpa using ih
    | cons g gs =>
      cases g with
      | nil =>
        rw [hgr] at ih
        simpa using ih
      | cons c g' =>
        rw [hgr] at ih
        dsimp only
        split_ifs with h <;> simp only [List.flatten_cons, List.cons_append] at ih ⊢ <;>
          rw [← ih] <;> simp

theorem mem_SortPseudoShuffle {x : Broker} {bl : List Broker} {seed : Int} :
    x ∈ SortPseudoShuffle bl seed ↔ x ∈ bl := by
  unfold SortPseudoShuffle
  rw [List.mem_flatten]
  constructor
  · rintro ⟨lr, hlr, hx⟩
    rcases List.mem_map.mp hlr with ⟨grp, hg, rfl⟩
    have hx1 : x ∈ grp := List.mem_rotate.mp hx
    have hx2 : x ∈ (groupRuns (sortByCount bl)).flatten := List.mem_flatten.mpr ⟨grp, hg, hx1⟩
    rw [flatten_groupRuns] at hx2
    exact (List.mem_insertionSort _).mp hx2
  · intro hx
    have hx1 : x ∈ (groupRuns (sortByCount bl)).flatten := by
      rw [flatten_groupRuns]
      exact (List.mem_insertionSort _).mpr hx
    rcases List.mem_flatten.mp hx1 with ⟨grp, hg, hxg⟩
    exact ⟨grp.rotate (randSeedState seed), List.mem_map_of_mem _ hg, List.mem_rotate.mpr hxg⟩

theorem bestCandidate_mem {bl : List Broker} {c : Constraints} {strategy : String} {seed : Int}
    {nb : Broker} {bl' : List Broker}
    (h : bestCandidate bl c strategy seed = .ok (nb, bl')) :
    nb ∈ bl ∧ ∀ x ∈ bl', ∃ y ∈ bl, x.ID = y.ID := by
  unfold bestCandidate at h
  simp only at h
  cases hf : (if strategy = "count" then SortPseudoShuffle bl seed else sortByStorage bl).find?
      (passesConstraints c) with
  | none => rw [hf] at h; cases h
  | some b =>
    rw [hf] at h
    simp only [Except.ok.injEq, Prod.mk.injEq] at h
    obtain ⟨h1, h2⟩ := h
    subst h1
    subst h2
    constructor
    · have hmem := List.mem_of_find?_eq_some hf
      by_cases hc : strategy = "count"
      · rw [if_pos hc] at hmem
        exact mem_SortPseudoShuffle.mp hmem
      · rw [if_neg hc] at hmem
        exact (List.mem_insertionSort _).mp hmem
    · intro x hx
      split_ifs at hx with hcase
      · rcases List.mem_map.mp hx with ⟨y, hy, rfl⟩
        refine ⟨y, hy, ?_⟩
        by_cases hid : y.ID = b.ID <;> simp [hid]
      · exact ⟨x, hx, rfl⟩
theorem passZeroAdd_ok {bm : BrokerMap} {pass : Nat} {partn : Partition} {st : PPState}
    (hst : stOk bm st) : stOk bm (passZeroAdd pass partn st) := by
  unfold passZeroAdd
  split_ifs
  · refine ⟨?_, hst.2⟩
    intro p hp
    rcases List.mem_append.mp hp with hp | hp
    · exact hst.1 p hp
    · rw [List.mem_singleton.mp hp]
      intro bid hbid
      cases hbid
  · exact hst

theorem placeFetch_ok {bm : BrokerMap} {strategy : String} {seed : Int} {n : Nat}
    {partn cur : Partition} {c : Constraints} {st : PPState}
    (hst : stOk bm st) (hcur : ∀ bid ∈ cur.Replicas, brokerOk bm bid = true) :
    stOk bm (placeFetch strategy seed n partn cur c st) := by
  unfold placeFetch
  cases hb : bestCandidate st.bl c strategy seed with
  | error e => exact ⟨hst.1, hst.2⟩
  | ok r =>
    obtain ⟨nb, bl'⟩ := r
    obtain ⟨hnb, hbl'⟩ := bestCandidate_mem hb
    refine ⟨?_, ?_⟩
    · intro p hp
      rcases List.mem_or_eq_of_mem_set hp with hp | rfl
      · exact hst.1 p hp
      · intro bid hbid
        rcases List.mem_append.mp hbid with h | h
        · exact hcur bid h
        · rw [List.mem_singleton.mp h]
          exact hst.2 nb hnb
    · intro x hx
      obtain ⟨y, hy, hid⟩ := hbl' x hx
      rw [hid]
      exact hst.2 y hy

theorem placeStep_ok {bm : BrokerMap} {pmm : PartitionMetaMap} {strategy : String} {pass : Nat}
    {st : PPState} {np : Nat × Partition} {st' : PPState}
    (hst : stOk bm st) (h : placeStep bm pmm strategy pass st np = some st') :
    stOk bm st' := by
  unfold placeStep at h
  have hst0 : stOk bm (passZeroAdd pass np.2 st) := passZeroAdd_ok hst
  by_cases hskip : (pass : Int) > (np.2.Replicas.length : Int) - 1
  · rw [if_pos hskip] at h
    injection h with h'
    rw [← h']
    exact ⟨hst0.1, hst0.2⟩
  · rw [if_neg hskip] at h
    cases hget : np.2.Replicas.get? pass with
    | none => simp only [hget] at h; exact Option.noConfusion h
    | some bid =>
      simp only [hget] at h
      cases hlk : List.lookup bid bm with
      | none => simp only [hlk] at h; exact Option.noConfusion h
      | some b =>
        simp only [hlk] at h
        by_cases hrep : (!b.Replace) = true
        · rw [if_pos hrep] at h
          cases hcur : (passZeroAdd pass np.2 st).newParts.get? np.1 with
          | none => simp only [hcur] at h; exact Option.noConfusion h
          | some cur =>
            simp only [hcur, Option.some.injEq] at h
            rw [← h]
            refine ⟨?_, hst0.2⟩
            intro p hp
            rcases List.mem_or_eq_of_mem_set hp with hp | rfl
            · exact hst0.1 p hp
            · intro bid2 hbid2
              rcases List.mem_append.mp hbid2 with hm | hm
              · exact hst0.1 cur (List.get?_mem hcur) bid2 hm
              · rw [List.mem_singleton.mp hm]
                unfold brokerOk
                rw [hlk]
                exact hrep
        · rw [if_neg hrep] at h
          cases hmap1 : np.2.Replicas.mapM (fun id => List.lookup id bm) with
          | none => simp only [hmap1] at h; exact Option.noConfusion h
          | some oldSet =>
            simp only [hmap1] at h
            cases hcur : (passZeroAdd pass np.2 st).newParts.get? np.1 with
            | none => simp only [hcur] at h; exact Option.noConfusion h
            | some cur =>
              simp only [hcur] at h
              cases hmap2 : cur.Replicas.mapM (fun id => List.lookup id bm) with
              | none => simp only [hmap2] at h; exact Option.noConfusion h
              | some newSet =>
                simp only [hmap2] at h
                have hcurok : ∀ bid2 ∈ cur.Replicas, brokerOk bm bid2 = true :=
                  hst0.1 cur (List.get?_mem hcur)
                by_cases hstrat : strategy = "storage"
                · rw [if_pos hstrat] at h
                  cases hsz : Size pmm np.2 with
                  | error e =>
                    simp only [hsz, Option.some.injEq] at h
                    rw [← h]
                    exact ⟨hst0.1, hst0.2⟩
                  | ok s =>
                    simp only [hsz, Option.some.injEq] at h
                    rw [← h]
                    exact placeFetch_ok hst0 hcurok
                · rw [if_neg hstrat] at h
                  simp only [Option.some.injEq] at h
                  rw [← h]
                  exact placeFetch_ok hst0 hcurok

theorem foldlM_placeStep_ok {bm : BrokerMap} {pmm : PartitionMetaMap} {strategy : String}
    {pass : Nat} :
    ∀ (l : List (Nat × Partition)) (st st' : PPState), stOk bm st →
      l.foldlM (placeStep bm pmm strategy pass) st = some st' → stOk bm st' := by
  intro l
  induction l with
  | nil =>
    intro st st' h hf
    simp only [List.foldlM_nil] at hf
    injection hf with h'
    rw [← h']
    exact h
  | cons x t ih =>
    intro st st' h hf
    simp only [List.foldlM_cons] at hf
    cases hs : placeStep bm pmm strategy pass st x with
    | none => rw [hs] at hf; cases hf
    | some st1 =>
      rw [hs] at hf
      exact ih st1 st' (placeStep_ok h hs) hf

theorem placeLoop_ok {bm : BrokerMap} {pmm : PartitionMetaMap} {strategy : String}
    {parts : List Partition} :
    ∀ (fuel pass : Nat) (st st' : PPState), stOk bm st →
      placeLoop bm pmm strategy parts fuel pass st = some st' → stOk bm st' := by
  intro fuel
  induction fuel with
  | zero => intro pass st st' h hl; cases hl
  | succ f ih =>
    intro pass st st' h hl
    unfold placeLoop at hl
    split_ifs at hl with hc
    · cases hp : placePass bm pmm strategy parts pass st with
      | none => rw [hp] at hl; cases hl
      | some st1 =>
        rw [hp] at hl
        exact ih _ _ _ (foldlM_placeStep_ok _ _ _ h hp) hl
    · injection hl with h'
      rw [← h']
      exact h

theorem placeByPosition_ok {pm : PartitionMap} {bm : BrokerMap} {pmm : PartitionMetaMap}
    {strategy : String} {mp : PartitionMap} {errs : List String} (hwf : bmWF bm)
    (h : placeByPosition pm bm pmm strategy = some (mp, errs)) :
    partsOk bm mp.Partitions := by
  unfold placeByPosition at h
  dsimp only at h
  cases hl : placeLoop bm pmm strategy pm.Partitions (maxReplicaLen pm.Partitions + 2) 0
      { newParts := [], skipped := 0, errs := [], bl := filteredList bm } with
  | none => simp only [hl] at h; exact Option.noConfusion h
  | some st =>
    simp only [hl, Option.some.injEq, Prod.mk.injEq] at h
    have hinit : stOk bm { newParts := [], skipped := 0, errs := [], bl := filteredList bm } := by
      refine ⟨?_, filteredList_ok hwf⟩
      intro p hp
      cases hp
    have hok := placeLoop_ok _ _ _ _ hinit hl
    rw [← h.1]
    exact hok.1

theorem pbpStep_ok {bm : BrokerMap} {pmm : PartitionMetaMap} {strategy : String}
    {partn : Partition} {acc acc' : Partition × List String × List Broker} {bid : Int}
    (hnp : ∀ b ∈ acc.1.Replicas, brokerOk bm b = true) (hbl : blOk bm acc.2.2)
    (h : pbpStep bm pmm strategy partn acc bid = some acc') :
    (∀ b ∈ acc'.1.Replicas, brokerOk bm b = true) ∧ blOk bm acc'.2.2 := by
  unfold pbpStep at h
  cases hlk : List.lookup bid bm with
  | none => simp only [hlk] at h; exact Option.noConfusion h
  | some b =>
    simp only [hlk] at h
    by_cases hrep : (!b.Replace) = true
    · rw [if_pos hrep] at h
      simp only [Option.some.injEq] at h
      rw [← h]
      refine ⟨?_, hbl⟩
      intro x hx
      rcases List.mem_append.mp hx with hm | hm
      · exact hnp x hm
      · rw [List.mem_singleton.mp hm]
        unfold brokerOk
        rw [hlk]
        exact hrep
    · rw [if_neg hrep] at h
      cases hmap1 : partn.Replicas.mapM (fun id => List.lookup id bm) with
      | none => simp only [hmap1] at h; exact Option.noConfusion h
      | some oldSet =>
        simp only [hmap1] at h
        cases hmap2 : acc.1.Replicas.mapM (fun id => List.lookup id bm) with
        | none => simp only [hmap2] at h; exact Option.noConfusion h
        | some newSet =>
          simp only [hmap2] at h
          have hfetch : ∀ (c : Constraints) (hacc : (match bestCandidate acc.2.2 c strategy 1 with
              | .error e => some (acc.1, acc.2.1 ++ [errString partn e], acc.2.2)
              | .ok (nb, bl') =>
                some ({ acc.1 with Replicas := acc.1.Replicas ++ [nb.ID] }, acc.2.1, bl')) = some acc'),
              (∀ b ∈ acc'.1.Replicas, brokerOk bm b = true) ∧ blOk bm acc'.2.2 := by
            intro c hacc
            cases hbc : bestCandidate acc.2.2 c strategy 1 with
            | error e =>
              simp only [hbc, Option.some.injEq] at hacc
              rw [← hacc]
              exact ⟨hnp, hbl⟩
            | ok r =>
              obtain ⟨nb, bl'⟩ := r
              obtain ⟨hnb, hbl'⟩ := bestCandidate_mem hbc
              simp only [hbc, Option.some.injEq] at hacc
              rw [← hacc]
              refine ⟨?_, ?_⟩
              · intro x hx
                rcases List.mem_append.mp hx with hm | hm
                · exact hnp x hm
                · rw [List.mem_singleton.mp hm]
                  exact hbl nb hnb
              · intro x hx
                obtain ⟨y, hy, hid⟩ := hbl' x hx
                rw [hid]
                exact hbl y hy
          by_cases hstrat : strategy = "storage"
          · rw [if_pos hstrat] at h
            cases hsz : Size pmm partn with
            | error e =>
              simp only [hsz, Option.some.injEq] at h
              rw [← h]
              exact ⟨hnp, hbl⟩
            | ok s =>
              simp only [hsz] at h
              exact hfetch _ h
          · rw [if_neg hstrat] at h
            exact hfetch _ h
theorem foldlM_pbpStep_ok {bm : BrokerMap} {pmm : PartitionMetaMap} {strategy : String}
    {partn : Partition} :
    ∀ (l : List Int) (acc acc' : Partition × List String × List Broker),
      (∀ b ∈ acc.1.Replicas, brokerOk bm b = true) → blOk bm acc.2.2 →
      l.foldlM (pbpStep bm pmm strategy partn) acc = some acc' →
      (∀ b ∈ acc'.1.Replicas, brokerOk bm b = true) ∧ blOk bm acc'.2.2 := by
  intro l
  induction l with
  | nil =>
    intro acc acc' h1 h2 hf
    simp only [List.foldlM_nil] at hf
    injection hf with h'
    rw [← h']
    exact ⟨h1, h2⟩
  | cons x t ih =>
    intro acc acc' h1 h2 hf
    simp only [List.foldlM_cons] at hf
    cases hs : pbpStep bm pmm strategy partn acc x with
    | none => rw [hs] at hf; cases hf
    | some acc1 =>
      rw [hs] at hf
      obtain ⟨g1, g2⟩ := pbpStep_ok h1 h2 hs
      exact ih acc1 acc' g1 g2 hf

theorem pbpPartitionStep_ok {bm : BrokerMap} {pmm : PartitionMetaMap} {strategy : String}
    {partn : Partition} {acc acc' : List Partition × List String × List Broker}
    (hparts : partsOk bm acc.1) (hbl : blOk bm acc.2.2)
    (h : pbpPartitionStep bm pmm strategy acc partn = some acc') :
    partsOk bm acc'.1 ∧ blOk bm acc'.2.2 := by
  unfold pbpPartitionStep at h
  cases hf : partn.Replicas.foldlM (pbpStep bm pmm strategy partn)
      ({ Topic := partn.Topic, Partition := partn.Partition, Replicas := [] }, acc.2.1, acc.2.2) with
  | none => simp only [hf] at h; exact Option.noConfusion h
  | some r =>
    obtain ⟨newPartn, errs, bl⟩ := r
    simp only [hf, Option.some.injEq] at h
    obtain ⟨hok, hbl'⟩ := foldlM_pbpStep_ok _ _ _ (by intro b hb; cases hb) hbl hf
    rw [← h]
    refine ⟨?_, hbl'⟩
    intro p hp
    rcases List.mem_append.mp hp with hm | hm
    · exact hparts p hm
    · rw [List.mem_singleton.mp hm]
      exact hok

theorem foldlM_pbpPartitionStep_ok {bm : BrokerMap} {pmm : PartitionMetaMap} {strategy : String} :
    ∀ (l : List Partition) (acc acc' : List Partition × List String × List Broker),
      partsOk bm acc.1 → blOk bm acc.2.2 →
      l.foldlM (pbpPartitionStep bm pmm strategy) acc = some acc' →
      partsOk bm acc'.1 ∧ blOk bm acc'.2.2 := by
  intro l
  induction l with
  | nil =>
    intro acc acc' h1 h2 hf
    simp only [List.foldlM_nil] at hf
    injection hf with h'
    rw [← h']
    exact ⟨h1, h2⟩
  | cons x t ih =>
    intro acc acc' h1 h2 hf
    simp only [List.foldlM_cons] at hf
    cases hs : pbpPartitionStep bm pmm strategy acc x with
    | none => rw [hs] at hf; cases hf
    | some acc1 =>
      rw [hs] at hf
      obtain ⟨g1, g2⟩ := pbpPartitionStep_ok h1 h2 hs
      exact ih acc1 acc' g1 g2 hf

theorem placeByPartition_ok {pm : PartitionMap} {bm : BrokerMap} {pmm : PartitionMetaMap}
    {strategy : String} {mp : PartitionMap} {errs : List String} (hwf : bmWF bm)
    (h : placeByPartition pm bm pmm strategy = some (mp, errs)) :
    partsOk bm mp.Partitions := by
  unfold placeByPartition at h
  cases hf : pm.Partitions.foldlM (pbpPartitionStep bm pmm strategy) ([], [], filteredList bm) with
  | none => simp only [hf] at h; exact Option.noConfusion h
  | some r =>
    obtain ⟨newParts, errs0, bl0⟩ := r
    simp only [hf, Option.some.injEq, Prod.mk.injEq] at h
    obtain ⟨hok, _⟩ := foldlM_pbpPartitionStep_ok _ _ _
      (by intro p hp; cases hp) (filteredList_ok hwf) hf
    rw [← h.1]
    exact hok

theorem foldl_shuffleStep_ok {bm : BrokerMap} :
    ∀ (l : List (Nat × Partition)) (acc : List Partition) (g : Nat),
      (∀ np ∈ l, ∀ bid ∈ np.2.Replicas, brokerOk bm bid = true) →
      (∀ p ∈ acc, ∀ bid ∈ p.Replicas, brokerOk bm bid = true) →
      ∀ p ∈ (l.foldl shuffleStep (acc, g)).1, ∀ bid ∈ p.Replicas, brokerOk bm bid = true := by
  intro l
  induction l with
  | nil => intro acc g _ hacc; exact hacc
  | cons x t ih =>
    intro acc g hl hacc
    simp only [List.foldl_cons]
    refine ih _ _ (fun np hnp => hl np (List.mem_cons_of_mem _ hnp)) ?_
    intro p hp
    rcases List.mem_append.mp hp with hm | hm
    · exact hacc p hm
    · rw [List.mem_singleton.mp hm]
      intro bid hbid
      exact hl x (List.mem_cons_self _ _) bid (List.mem_rotate.mp hbid)

theorem shuffle_ok {bm : BrokerMap} {pm : PartitionMap} {g : Nat}
    (h : partsOk bm pm.Partitions) : partsOk bm (shuffle pm g).1.Partitions := by
  unfold shuffle
  dsimp only
  intro p hp
  refine foldl_shuffleStep_ok pm.Partitions.enum [] g ?_ (by intro q hq; cases hq) p hp
  intro np hnp
  have hmem : np.2 ∈ pm.Partitions := by
    rw [← List.enum_map_snd pm.Partitions]
    exact List.mem_map_of_mem Prod.snd hnp
  exact h np.2 hmem

theorem sortPartitions_ok {bm : BrokerMap} {l : List Partition} (h : partsOk bm l) :
    partsOk bm (sortPartitions l) := by
  intro p hp
  exact h p ((List.mem_insertionSort _).mp hp)
/-- C2: for every well-formed broker map, under either strategy, every
broker ID in every replica set of the map `Rebuild` returns resolves to a
broker whose replace flag is false; no replace-marked broker appears in
any output replica set. -/
theorem rebuild_excludes_replace_brokers (pm : PartitionMap) (bm : BrokerMap)
    (pmm : PartitionMetaMap) (strategy : String) (g g' : Nat) (m : PartitionMap)
    (errs : List String) (hwf : bmWF bm) (hs : strategy = "count" ∨ strategy = "storage")
    (h : Rebuild pm bm pmm strategy g = (some (some m, errs), g')) :
    m.Partitions.all (fun p => p.Replicas.all (brokerOk bm)) = true := by
  have hgoal : partsOk bm m.Partitions →
      m.Partitions.all (fun p => p.Replicas.all (brokerOk bm)) = true := by
    intro hok
    rw [List.all_eq_true]
    intro p hp
    rw [List.all_eq_true]
    intro b hb
    exact hok p hp b hb
  refine hgoal ?_
  rcases hs with rfl | rfl
  · unfold Rebuild at h
    rw [if_pos rfl] at h
    cases hp : placeByPosition { pm with Partitions := sortPartitions pm.Partitions } bm pmm "count" with
    | none => simp only [hp] at h; exact absurd h (by simp)
    | some r =>
      obtain ⟨m0, errs0⟩ := r
      simp only [hp, Prod.mk.injEq, Option.some.injEq] at h
      obtain ⟨⟨hm, he⟩, hg⟩ := h
      rw [← hm]
      exact sortPartitions_ok (placeByPosition_ok hwf hp)
  · unfold Rebuild at h
    rw [if_neg (by decide), if_pos rfl] at h
    cases hp : placeByPartition { pm with Partitions := sortBySize pmm pm.Partitions } bm pmm "storage" with
    | none => simp only [hp] at h; exact absurd h (by simp)
    | some r =>
      obtain ⟨m0, errs0⟩ := r
      simp only [hp, Prod.mk.injEq, Option.some.injEq] at h
      obtain ⟨⟨hm, he⟩, hg⟩ := h
      rw [← hm]
      exact sortPartitions_ok (shuffle_ok (placeByPartition_ok hwf hp))
theorem lookup_bmSetFree_self (bm : BrokerMap) (id : Int) (v : ℚ) :
    List.lookup id (bmSetFree bm id v) =
      (List.lookup id bm).map (fun b => { b with StorageFree := v }) := by
  induction bm with
  | nil => rfl
  | cons e t ih =>
    by_cases he : e.1 = id
    · simp only [bmSetFree, List.map_cons, if_pos he]
      have hb : (id == e.1) = true := beq_iff_eq.mpr he.symm
      simp only [List.lookup, hb, Option.map_some']
    · simp only [bmSetFree, List.map_cons, if_neg he]
      have hb : (id == e.1) = false := beq_eq_false_iff_ne.mpr (fun hx => he hx.symm)
      simp only [List.lookup, hb]
      exact ih

theorem lookup_bmSetFree_other (bm : BrokerMap) (id id' : Int) (v : ℚ) (h : id' ≠ id) :
    List.lookup id' (bmSetFree bm id v) = List.lookup id' bm := by
  induction bm with
  | nil => rfl
  | cons e t ih =>
    by_cases he : e.1 = id
    · simp only [bmSetFree, List.map_cons, if_pos he]
      have hb : (id' == e.1) = false := beq_eq_false_iff_ne.mpr (fun hx => h (hx.trans he))
      simp only [List.lookup, hb]
      exact ih
    · simp only [bmSetFree, List.map_cons, if_neg he]
      cases hb : (id' == e.1) with
      | true => simp only [List.lookup, hb]
      | false => simp only [List.lookup, hb]; exact ih

theorem prDest_mem {localityScoped : Bool} {sourceID : Int} {targetLocality : String}
    {brokers : BrokerMap} {p : Partition} {d : Broker}
    (h : prDest localityScoped sourceID targetLocality brokers p = some (some d)) :
    d ∈ bmList brokers := by
  unfold prDest at h
  split_ifs at h with hls
  · injection h with h'
    exact (List.mem_insertionSort _).mp (List.mem_of_find?_eq_some h')
  · cases hmap : (p.Replicas.filter (fun id => decide (id ≠ sourceID))).mapM
        (fun id => List.lookup id brokers) with
    | none => simp only [hmap] at h; exact Option.noConfusion h
    | some replicaSet =>
      simp only [hmap] at h
      injection h with h'
      cases hbc : bestCandidate (sortByStorage (bmList brokers))
          (mergeConstraints replicaSet) "storage" 0 with
      | error e => rw [hbc] at h'; exact Option.noConfusion h'
      | ok r =>
        rw [hbc] at h'
        injection h' with h''
        rw [← h'']
        obtain ⟨nb, bl'⟩ := r
        exact (List.mem_insertionSort _).mp (bestCandidate_mem hbc).1

theorem prLoop_commit {tolerance : ℚ} {localityScoped : Bool} {sourceID : Int}
    {targetLocality : String} {mean : ℚ} {pmm : PartitionMetaMap} {brokers : BrokerMap}
    (hwf : bmWF brokers) :
    ∀ (l : List Partition) (relos : List (Int × List Reloc)) (plan : RelocationPlan)
      (mappings : Mappings) (n : Nat) (st : PlanResult) (c : CommitInfo),
      prLoop tolerance localityScoped sourceID targetLocality mean pmm l relos plan brokers
        mappings n = some st →
      st.commit = some c → c.destID ≠ sourceID →
      c.sFree + c.size ≤ mean * (1 + tolerance) ∧
      mean * (1 - tolerance) ≤ c.dFree - c.size ∧
      (∃ b0, List.lookup sourceID brokers = some b0 ∧ b0.StorageFree = c.sFree) ∧
      (∃ d0, List.lookup c.destID brokers = some d0 ∧ d0.StorageFree = c.dFree) ∧
      (∃ b1, List.lookup sourceID st.brokers = some b1 ∧ b1.StorageFree = c.sFree + c.size) ∧
      (∃ d1, List.lookup c.destID st.brokers = some d1 ∧ d1.StorageFree = c.dFree - c.size) := by
  intro l
  induction l with
  | nil =>
    intro relos plan mappings n st c hpr hc hne
    unfold prLoop at hpr
    injection hpr with h'
    rw [← h'] at hc
    exact absurd hc (by simp)
  | cons p rest ih =>
    intro relos plan mappings n st c hpr hc hne
    unfold prLoop at hpr
    cases hdest : prDest localityScoped sourceID targetLocality brokers p with
    | none => simp only [hdest] at hpr; exact Option.noConfusion hpr
    | some od =>
      simp only [hdest] at hpr
      cases od with
      | none =>
        injection hpr with h'
        rw [← h'] at hc
        exact absurd hc (by simp)
      | some d =>
        cases hsrc : List.lookup sourceID brokers with
        | none => simp only [hsrc] at hpr; exact Option.noConfusion hpr
        | some srcB =>
          simp only [hsrc] at hpr
          split_ifs at hpr with h1 h2
          · have hres := ih _ _ _ _ _ _ hpr hc hne
            rw [hsrc] at hres
            exact hres
          · have hres := ih _ _ _ _ _ _ hpr hc hne
            rw [hsrc] at hres
            exact hres
          · injection hpr with hm'
            rw [← hm'] at hc
            simp only at hc
            injection hc with hc'
            have hsize : c.size = (match Size pmm p with | .ok s => s | .error _ => 0) :=
              congrArg CommitInfo.size hc'.symm
            have hsf : c.sFree = srcB.StorageFree := congrArg CommitInfo.sFree hc'.symm
            have hdf : c.dFree = d.StorageFree := congrArg CommitInfo.dFree hc'.symm
            have hdid : c.destID = d.ID := congrArg CommitInfo.destID hc'.symm
            have hdlk : List.lookup d.ID brokers = some d := bmList_lookup hwf (prDest_mem hdest)
            have hne2 : sourceID ≠ d.ID := fun hx => hne (hdid.trans hx.symm)
            refine ⟨?_, ?_, ⟨srcB, rfl, hsf.symm⟩, ⟨d, hdid ▸ hdlk, hdf.symm⟩, ?_, ?_⟩
            · rw [hsf, hsize]; exact not_lt.mp h1
            · rw [hdf, hsize]; exact not_lt.mp h2
            · rw [← hm']
              simp only
              rw [lookup_bmSetFree_other _ _ _ _ hne2, lookup_bmSetFree_self, hsrc]
              exact ⟨_, rfl, by rw [hsf, hsize]⟩
            · rw [← hm']
              simp only
              rw [hdid, lookup_bmSetFree_self,
                lookup_bmSetFree_other _ _ _ _ (fun hx => hne2 hx.symm), hdlk]
              exact ⟨_, rfl, by rw [hdf, hsize]⟩
/-- C1 (amended): for every call to `planRelocationsForBroker` and its
committed move whose destination differs from the source, the source
broker's `StorageFree` becomes exactly its prior value plus the moved
partition's size and the destination's exactly its prior value minus that
size (strictly increasing resp. decreasing whenever the size is positive),
and the commit-time checks keep the new source value at or below
`mean*(1+tolerance)` and the new destination value at or above
`mean*(1-tolerance)`, where `mean` is the arithmetic mean of `StorageFree`
computed at the start of the call. Both restrictions are forced by the
counterexample theorem: a size of 0 occurs when the partition is missing
from the metadata (first scenario), and the destination can equal the
source, in which case the source's free storage decreases by the size
(second scenario). -/
theorem planRelocations_committed_move_exact (tolerance : ℚ) (localityScoped : Bool)
    (params : PlanParams) (st : PlanResult) (c : CommitInfo)
    (hwf : bmWF params.brokers)
    (h : planRelocationsForBroker tolerance localityScoped params = some st)
    (hc : st.commit = some c) (hne : c.destID ≠ params.sourceID) :
    c.sFree + c.size ≤ brokerMapMean params.brokers * (1 + tolerance) ∧
    brokerMapMean params.brokers * (1 - tolerance) ≤ c.dFree - c.size ∧
    (∃ b0, List.lookup params.sourceID params.brokers = some b0 ∧ b0.StorageFree = c.sFree) ∧
    (∃ d0, List.lookup c.destID params.brokers = some d0 ∧ d0.StorageFree = c.dFree) ∧
    (∃ b1, List.lookup params.sourceID st.brokers = some b1 ∧ b1.StorageFree = c.sFree + c.size) ∧
    (∃ d1, List.lookup c.destID st.brokers = some d1 ∧ d1.StorageFree = c.dFree - c.size) ∧
    (0 < c.size → c.sFree < c.sFree + c.size ∧ c.dFree - c.size < c.dFree) := by
  unfold planRelocationsForBroker at h
  cases hsrc : List.lookup params.sourceID params.brokers with
  | none => simp only [hsrc] at h; exact Option.noConfusion h
  | some srcB =>
    simp only [hsrc] at h
    have hres := prLoop_commit hwf _ _ _ _ _ _ _ h hc hne
    rw [hsrc] at hres
    obtain ⟨r1, r2, r3, r4, r5, r6⟩ := hres
    exact ⟨r1, r2, r3, r4, r5, r6, fun hpos => ⟨by linarith, by linarith⟩⟩

/-- C6: `Rebuild` called with any strategy other than "count" or "storage"
returns a nil map together with exactly one error string reporting the
invalid strategy, and no partially computed result. -/
theorem rebuild_invalid_strategy (pm : PartitionMap) (bm : BrokerMap) (pmm : PartitionMetaMap)
    (strategy : String) (g : Nat) (h1 : strategy ≠ "count") (h2 : strategy ≠ "storage") :
    Rebuild pm bm pmm strategy g = (some (none, [invalidStrategyMsg strategy]), g) := by
  unfold Rebuild
  rw [if_neg h1, if_neg h2]

/-- Witness for C6 at the concrete strategy "fraction". -/
theorem rebuild_invalid_strategy_witness :
    Rebuild NewPartitionMap [] [] "fraction" 0 =
      (some (none, [invalidStrategyMsg "fraction"]), 0) :=
  rebuild_invalid_strategy NewPartitionMap [] [] "fraction" 0 (by decide) (by decide)

/-- Witness for C7 on a map with replica lengths 2, 3, 4 and r = 3. -/
theorem setReplication_replication_factor_witness :
    SetReplication pm7 3 =
      { Version := pm7.Version
        Partitions := pm7.Partitions.map (fun p =>
          { Topic := p.Topic, Partition := p.Partition
            Replicas :=
              if 3 < p.Replicas.length then p.Replicas.take 3
              else p.Replicas ++ List.replicate (3 - p.Replicas.length) 0 }) } ∧
    (SetReplication pm7 3).Partitions.all (fun q => q.Replicas.length == 3) = true :=
  (setReplication_replication_factor pm7 3).2 (by decide)

/-- C9: `Rebuild` (via `placeByPosition` and `placeByPartition`) reads
`bm[bid].Replace` without a presence check; on an input whose replica ID
(here the stub 0) has no entry in the broker map, both placement functions
and `Rebuild` itself hit the nil dereference, modelled as `none` — the
presence of every referenced broker ID is an unstated precondition. -/
theorem rebuild_missing_broker_panics :
    placeByPosition pmC9 bmC9 [] "count" = none ∧
    placeByPartition pmC9 bmC9 [] "storage" = none ∧
    (Rebuild pmC9 bmC9 [] "count" 0).1 = none := by decide

/-- C3: on three partitions with replica lengths 2, 2, 5 and no broker
marked for replacement, the cumulative skip counter of `placeByPosition`
reaches the partition count before replica index 4 is ever examined: the
third partition comes back with only 4 of its 5 replicas and no soft
error, contradicting the per-pass termination rule the spec (and the
code's own comment) describe. -/
theorem placeByPosition_cumulative_skip_early_exit :
    placeByPosition pmC3 bmC3 [] "count" =
      some ({ Version := 1
              Partitions :=
                [{ Topic := "t", Partition := 0, Replicas := [1, 2] },
                 { Topic := "t", Partition := 1, Replicas := [1, 2] },
                 { Topic := "t", Partition := 2, Replicas := [1, 2, 3, 4] }] }, []) ∧
    pmC3.Partitions.map (fun p => p.Replicas.length) = [2, 2, 5] := by decide

/-- Witness for C2: a one-partition, one-healthy-broker rebuild. -/
theorem rebuild_excludes_replace_brokers_witness :
    pmW.Partitions.all (fun p => p.Replicas.all (brokerOk bmW)) = true :=
  rebuild_excludes_replace_brokers pmW bmW [] "count" 0 0 pmW [] (by decide)
    (Or.inl rfl) (by decide)

/-- C1 counterexample: two committed moves violate the claim as stated.
In the zero-size scenario (partition absent from the metadata, so the
ignored `Size` error leaves `pSize = 0`) a move is committed — `reloCount`
is 1 and the commit records destination 2 with size 0 — yet the source
broker's `StorageFree` is unchanged at 100, so the source's free storage
does not strictly increase. In the self-move scenario (not locality
scoped), `BestCandidate` under the constraints of the replica set minus
the source selects the source broker itself: a move with destination 1 =
source and size 10 is committed, and the source's `StorageFree` falls
from 120 to 110 — the source's free storage decreases instead of
increasing by the moved size. -/
theorem planRelocations_commit_counterexamples :
    ((planRelocationsForBroker (1/10) true paramsC1).map
        (fun st => (st.reloCount,
          st.commit.map (fun c => (c.destID, c.size)),
          (List.lookup 1 st.brokers).map Broker.StorageFree)) = some (1, some (2, 0), some 100) ∧
      (List.lookup 1 paramsC1.brokers).map Broker.StorageFree = some 100) ∧
    ((planRelocationsForBroker (1/2) false paramsC1s).map
        (fun st => (st.reloCount,
          st.commit.map (fun c => (c.destID, c.size)),
          (List.lookup 1 st.brokers).map Broker.StorageFree)) = some (1, some (1, 10), some 110) ∧
      (List.lookup 1 paramsC1s.brokers).map Broker.StorageFree = some 120 ∧
      (110 : ℚ) < 120) := by
  refine ⟨⟨?_, ?_⟩, ?_, ?_, by norm_num⟩
  · norm_num [planRelocationsForBroker, prLoop, prDest, paramsC1, LargestPartitions, sortBySize,
      brokerMapMean, filteredList, bmList, sortByStorage, byStorageLe, List.insertionSort,
      List.orderedInsert, Size, bmSetFree, relosAppend, planAdd, assocSet, mappingsRemove,
      List.lookup, List.find?, List.filter, List.take, bySizeLe, bne,
      (show (((2:Int) == 1)) = false from rfl), Option.map_some']
  · norm_num [paramsC1, List.lookup]
  · norm_num [planRelocationsForBroker, prLoop, prDest, paramsC1s, LargestPartitions, sortBySize,
      brokerMapMean, filteredList, bmList, sortByStorage, byStorageLe, List.insertionSort,
      List.orderedInsert, Size, bmSetFree, relosAppend, planAdd, assocSet, mappingsRemove,
      List.lookup, List.find?, List.filter, List.take, bySizeLe, bne, bestCandidate,
      passesConstraints, mergeConstraints, List.contains, List.elem, List.mapM, List.mapM.loop,
      (show (((2:Int) == 1)) = false from rfl),
      (show (("a" == "b")) = false from rfl),
      (show (decide ((2:Int) ≠ 1)) = true from rfl),
      (show (decide ((1:Int) ≠ 1)) = false from rfl),
      Option.map_some']
  · norm_num [paramsC1s, List.lookup]

/-- Witness for C1 (amended): the positive-size scenario commits the move
of the 30-byte partition from broker 1 to broker 2, and the conclusion of
the amended theorem holds at that concrete commit. -/
theorem planRelocations_committed_move_exact_witness :
    cW.sFree + cW.size ≤ brokerMapMean paramsC1w.brokers * (1 + (1/2 : ℚ)) ∧
    brokerMapMean paramsC1w.brokers * (1 - (1/2 : ℚ)) ≤ cW.dFree - cW.size ∧
    (∃ b0, List.lookup paramsC1w.sourceID paramsC1w.brokers = some b0 ∧
      b0.StorageFree = cW.sFree) ∧
    (∃ d0, List.lookup cW.destID paramsC1w.brokers = some d0 ∧ d0.StorageFree = cW.dFree) ∧
    (∃ b1, List.lookup paramsC1w.sourceID stW.brokers = some b1 ∧
      b1.StorageFree = cW.sFree + cW.size) ∧
    (∃ d1, List.lookup cW.destID stW.brokers = some d1 ∧
      d1.StorageFree = cW.dFree - cW.size) ∧
    (0 < cW.size → cW.sFree < cW.sFree + cW.size ∧ cW.dFree - cW.size < cW.dFree) :=
  planRelocations_committed_move_exact (1/2) true paramsC1w stW cW (by decide)
    (by norm_num [planRelocationsForBroker, prLoop, prDest, paramsC1w, LargestPartitions,
      sortBySize, brokerMapMean, filteredList, bmList, sortByStorage, byStorageLe,
      List.insertionSort, List.orderedInsert, Size, bmSetFree, relosAppend, planAdd, assocSet,
      mappingsRemove, List.lookup, List.find?, List.filter, List.take, bySizeLe, bne,
      (show (((2:Int) == 1)) = false from rfl), Option.map_some', stW, cW, pC1w])
    rfl (by decide)

end Kafkazk
